import Mathlib

/-!
# Verification of the `use-editable` synchronization core

Shallow embedding of the relevant parts of `src/src/useEditable.ts` and
`src/unnamed/part_001` (the hook implementation), together with proofs and
refutations of the frozen claims about the specification.

Modelling conventions:
* JS strings are modelled as `List Char` (`Str`).
* JS numbers used as indices/timestamps are modelled as `Int` (they can be
  negative, e.g. `historyAt = -1`), with explicit clamping where the source
  clamps.
* The mutable closure state of the hook (`state.history`, `state.historyAt`,
  `state.position`, the closure variable `_trackStateTimestamp`) is one
  explicit record, `TrackSt`, threaded through each call.
* A call to `trackState` reads `elementRef.current`, `toString(element)`,
  `getPosition(element)` and `new Date().valueOf()` from the environment;
  those reads are the fields of `Attempt`.
* The history machinery never inspects the entries it stores (a `[Position,
  string]` pair in the source), so it is embedded generically over the
  position type `π` and the content type `γ`; content equality (`===` on JS
  strings) becomes `DecidableEq γ`.
* JS arrays used by the history can be sparse: `state.history[at] = entry`
  with `at > length` creates holes.  Entries are therefore stored as
  `Option (π × γ)`; a hole (`none`) is falsy in JS, exactly like a missing
  index.
-/

namespace UseEditable

abbrev Str := List Char

/-- JS array indexing `l[i]` where `i` may be negative or out of range
(`undefined` becomes `none`). -/
def getAt {α : Type} (l : List α) (i : Int) : Option α :=
  if i < 0 then none else l.get? i.toNat

/-- JS array indexing into a possibly sparse array: a hole (`none` entry) is
indistinguishable from a missing index (both are falsy `undefined`). -/
def jget {π γ : Type} (l : List (Option (π × γ))) (i : Int) : Option (π × γ) :=
  (getAt l i).join

/-- The hook state relevant to history tracking: `state.history`,
`state.historyAt`, `state.position` and the closure variable
`_trackStateTimestamp` (which starts out `undefined`, hence `Option`). -/
structure TrackSt (π γ : Type) where
  history : List (Option (π × γ))
  historyAt : Int
  position : Option π
  ts : Option Int

/-- One call to `trackState`: what the closure reads from its environment.
`element` is whether `elementRef.current` is non-null; `content` is
`toString(element)`; `pos` is `getPosition(element)`; `time` is
`new Date().valueOf()`; `ignoreTimestamp` is the optional argument. -/
structure Attempt (π γ : Type) where
  element : Bool
  content : γ
  pos : π
  time : Int
  ignoreTimestamp : Bool

/-- `state.history[at] = entry` on a JS array (padding with holes when `at`
exceeds the current length) followed by `state.history.splice(at + 1)`
(truncating everything after index `at`). -/
def setSplice {π γ : Type} (l : List (Option (π × γ))) (at_ : Nat) (e : π × γ) :
    List (Option (π × γ)) :=
  l.take at_ ++ List.replicate (at_ - l.length) none ++ [some e]

/-- `trackState` from the source (part_001 lines 313-338 / useEditable.ts
lines 319-344):

```js
let _trackStateTimestamp: number;
const trackState = (ignoreTimestamp?: boolean) => {
  if (!elementRef.current || !state.position) return;
  const content = toString(element);
  const position = getPosition(element);
  const timestamp = new Date().valueOf();
  const lastEntry = state.history[state.historyAt];
  if (
    (!ignoreTimestamp && timestamp - _trackStateTimestamp < 500) ||
    (lastEntry && lastEntry[1] === content)
  ) {
    _trackStateTimestamp = timestamp;
    return;
  }
  const at = ++state.historyAt;
  state.history[at] = [position, content];
  state.history.splice(at + 1);
  if (at > 500) {
    state.historyAt--;
    state.history.shift();
  }
};
```

Note that `timestamp - _trackStateTimestamp` is `NaN` while
`_trackStateTimestamp` is still `undefined`, and `NaN < 500` is `false`;
this is the `none` case of `st.ts`.  The condition is split into the two
named tests `debouncedB` / `dedupedB` below. -/
def debouncedB {π γ : Type} (st : TrackSt π γ) (a : Attempt π γ) : Bool :=
  !a.ignoreTimestamp &&
    (match st.ts with
      | some t0 => decide (a.time - t0 < 500)
      | none => false)

/-- `lastEntry && lastEntry[1] === content`. -/
def dedupedB {π γ : Type} [DecidableEq γ] (st : TrackSt π γ) (a : Attempt π γ) :
    Bool :=
  match jget st.history st.historyAt with
  | some e => decide (e.2 = a.content)
  | none => false

def trackState {π γ : Type} [DecidableEq γ] (st : TrackSt π γ) (a : Attempt π γ) :
    TrackSt π γ :=
  if !a.element || st.position.isNone then st
  else
    if debouncedB st a || dedupedB st a then { st with ts := some a.time }
    else
      let at_ : Int := st.historyAt + 1
      let history1 := setSplice st.history at_.toNat (a.pos, a.content)
      if at_ > 500 then
        { st with history := history1.drop 1, historyAt := at_ - 1 }
      else
        { st with history := history1, historyAt := at_ }

/-- The undo branch of `onKeyDown` (part_001 lines 386-401, `!event.shiftKey`):

```js
const at = --state.historyAt;
history = state.history[at];
if (!history) state.historyAt = 0;
...
if (history) {
  disconnect();
  state.position = history[0];
  state.onChange(history[1], history[0]);
}
```

Returns the new state together with the emitted entry (`none` when nothing
is emitted). -/
def undo {π γ : Type} (st : TrackSt π γ) : TrackSt π γ × Option (π × γ) :=
  let at_ : Int := st.historyAt - 1
  match jget st.history at_ with
  | some e => ({ st with historyAt := at_, position := some e.1 }, some e)
  | none => ({ st with historyAt := (0 : Int) }, none)

/-- The redo branch of `onKeyDown` (part_001, `event.shiftKey`):

```js
const at = ++state.historyAt;
history = state.history[at];
if (!history) state.historyAt = state.history.length - 1;
```
-/
def redo {π γ : Type} (st : TrackSt π γ) : TrackSt π γ × Option (π × γ) :=
  let at_ : Int := st.historyAt + 1
  match jget st.history at_ with
  | some e => ({ st with historyAt := at_, position := some e.1 }, some e)
  | none => ({ st with historyAt := (st.history.length : Int) - 1 }, none)

/-- Folding a sequence of `trackState` calls. -/
def runAttempts {π γ : Type} [DecidableEq γ] (st : TrackSt π γ)
    (as : List (Attempt π γ)) : TrackSt π γ :=
  as.foldl trackState st

/-- The empty initial state (`history: [], historyAt: -1`), with a session
position installed (the editable is focused). -/
def initSt {π γ : Type} (p : π) : TrackSt π γ :=
  { history := [], historyAt := -1, position := some p, ts := none }

/-- An unforced attempt with everything supplied. -/
def mkAttempt {π γ : Type} (c : γ) (p : π) (t : Int) : Attempt π γ :=
  { element := true, content := c, pos := p, time := t, ignoreTimestamp := false }

/-- The C4 debounce scenario: distinct contents at t = 0, 100, 200, 600. -/
def c4Run : TrackSt Unit Str :=
  runAttempts (initSt ())
    [mkAttempt ['a'] () 0, mkAttempt ['b'] () 100,
     mkAttempt ['c'] () 200, mkAttempt ['d'] () 600]

/-- Invariant for C5: the history never holds more than 501 entries and the
index stays within `[-1, 500]`. -/
def histInv {π γ : Type} (st : TrackSt π γ) : Prop :=
  st.history.length ≤ 501 ∧ -1 ≤ st.historyAt ∧ st.historyAt ≤ 500

/-- The `i`-th forced record attempt of the C5 scenario: distinct contents
(`i` itself) with `ignoreTimestamp` set, so neither the debounce nor the
dedupe fires and every attempt records. -/
def c5Attempt (i : Nat) : Attempt Unit Nat :=
  { element := true, content := i, pos := (), time := 0, ignoreTimestamp := true }

/-- A state in which 502 successive records have happened. -/
def c5Run : TrackSt Unit Nat :=
  runAttempts (initSt ()) ((List.range 502).map c5Attempt)

/-- The history contents after `n` of the C5 record attempts. -/
def c5Hist (n : Nat) : List (Option (Unit × Nat)) :=
  (List.range n).map fun i => some ((), i)

/-- The C6 scenario state: history `[A, B, C]` with the index at 2. -/
def c6St : TrackSt Unit Str :=
  { history := [some ((), ['A']), some ((), ['B']), some ((), ['C'])],
    historyAt := 2, position := some (), ts := none }

/-! ## The DOM tree model

A `DNode` is a node of the content tree: a text leaf, a `<br>` line-break
marker, or an element with children.  The `id` field models JS object
identity (the DOM functions of the source operate on node references);
well-formed trees have pairwise distinct ids.  Traversals that the source
writes with an explicit stack of nodes (using `nextSibling`/`firstChild`)
are embedded with a stack of cursors: a node together with its pending
right siblings, so an entry is a nonempty `List DNode`.
-/

inductive DNode : Type where
  | text (id : Nat) (s : Str)
  | br (id : Nat)
  | elem (id : Nat) (kids : List DNode)

def DNode.nid : DNode → Nat
  | .text j _ => j
  | .br j => j
  | .elem j _ => j

mutual
def dsize : DNode → Nat
  | .text _ _ => 1
  | .br _ => 1
  | .elem _ ks => 1 + dsizeL ks
def dsizeL : List DNode → Nat
  | [] => 0
  | n :: r => dsize n + dsizeL r
end

mutual
def tcText : DNode → Str
  | .text _ s => s
  | .br _ => []
  | .elem _ ks => tcTextL ks
def tcTextL : List DNode → Str
  | [] => []
  | n :: r => tcText n ++ tcTextL r
end

theorem dsize_pos (n : DNode) : 1 ≤ dsize n := by
  cases n <;> simp [dsize]

def stackW : List (List DNode) → Nat
  | [] => 0
  | l :: r => dsizeL l + stackW r

/-- `queue.pop(); if (node.nextSibling) queue.push(node.nextSibling);
if (node.firstChild) queue.push(node.firstChild);` -/
def pushKids (n : DNode) (sib : List DNode) (rest : List (List DNode)) :
    List (List DNode) :=
  let s1 := if sib.isEmpty then rest else sib :: rest
  match n with
  | .elem _ (k :: ks) => (k :: ks) :: s1
  | _ => s1

theorem stackW_pushKids (n : DNode) (sib : List DNode)
    (rest : List (List DNode)) :
    stackW (pushKids n sib rest) + 1 = stackW ((n :: sib) :: rest) := by
  have hsib : stackW (if sib.isEmpty then rest else sib :: rest) =
      dsizeL sib + stackW rest := by
    cases sib <;> simp [stackW, dsizeL]
  cases n with
  | text j s => simp [pushKids, stackW, dsizeL, dsize, hsib]; omega
  | br j => simp [pushKids, stackW, dsizeL, dsize, hsib]; omega
  | elem j ks =>
    cases ks with
    | nil => simp [pushKids, stackW, dsizeL, dsize, hsib]; omega
    | cons k kr => simp [pushKids, stackW, dsizeL, dsize, hsib]; omega

theorem len_pushKids (n : DNode) (sib : List DNode)
    (rest : List (List DNode)) :
    (pushKids n sib rest).length ≤ rest.length + 2 := by
  have hsib : (if sib.isEmpty then rest else sib :: rest).length ≤
      rest.length + 1 := by
    cases sib <;> simp
  cases n with
  | text j s => simpa [pushKids] using Nat.le_succ_of_le hsib
  | br j => simpa [pushKids] using Nat.le_succ_of_le hsib
  | elem j ks =>
    cases ks with
    | nil => simpa [pushKids] using Nat.le_succ_of_le hsib
    | cons k kr => simp [pushKids]; omega

/-- `toString` DFS loop over the explicit stack (part_001 lines 30-45). -/
def toStringLoop (stack : List (List DNode)) (acc : Str) : Str :=
  match stack with
  | [] => acc
  | [] :: rest => toStringLoop rest acc
  | (n :: sib) :: rest =>
    let acc1 :=
      match n with
      | .text _ s => acc ++ s
      | .br _ => acc ++ ['\n']
      | .elem _ _ => acc
    toStringLoop (pushKids n sib rest) acc1
termination_by 2 * stackW stack + stack.length
decreasing_by
  · simp [stackW]; omega
  · have h1 := stackW_pushKids n sib rest
    have h2 := len_pushKids n sib rest
    simp [stackW] at h1 ⊢
    omega

def rawContent (kids : List DNode) : Str := toStringLoop [kids] []

def toString (kids : List DNode) : Str :=
  let content := rawContent kids
  if content.getLast? = some '\n' then content else content ++ ['\n']

/-- A DOM `Range` boundary point as produced by `makeRange`:
`inNode id off` is `range.setStart(node, off)` (for a text node, a character
offset; for an element, a child index); `after id` is
`range.setStartAfter(node)`; `docStart` is the boundary of a freshly created
range that was never repositioned (`(document, 0)`). -/
inductive Bd : Type where
  | inNode (id : Nat) (off : Nat)
  | after (id : Nat)
  | docStart
deriving DecidableEq

/-- The `setStart` helper (part_001 lines 53-59): position inside the node
when the offset is strictly below `textContent.length`, otherwise after it.
The `setEnd` helper (lines 61-67) is identical on boundaries. -/
def setBoundary (n : DNode) (off : Nat) : Bd :=
  if off < (tcText n).length then .inNode n.nid off else .after n.nid

theorem measure_pushKids (n : DNode) (sib : List DNode)
    (rest : List (List DNode)) :
    2 * stackW (pushKids n sib rest) + (pushKids n sib rest).length <
      2 * stackW ((n :: sib) :: rest) + ((n :: sib) :: rest).length := by
  have h1 := stackW_pushKids n sib rest
  have h2 := len_pushKids n sib rest
  simp only [stackW, List.length_cons] at h1 ⊢
  omega

/-- The traversal loop of `makeRange` (part_001 lines 95-142), on a stack of
cursors (a node together with its pending right siblings).  `sB`/`eB` are
the set-once start/end boundaries of the range being built. -/
def makeLoop (stack : List (List DNode)) (current position start endP : Nat)
    (sB eB : Option Bd) : Option Bd × Option Bd :=
  match stack with
  | [] => (sB, eB)
  | [] :: rest => makeLoop rest current position start endP sB eB
  | (DNode.text j s :: sib) :: rest =>
    if current + s.length >= position then
      if hps : position = start then
        if hne : endP ≠ start then
          makeLoop ((DNode.text j s :: sib) :: rest) current endP start endP
            (some (setBoundary (DNode.text j s) (position - current))) eB
        else (some (setBoundary (DNode.text j s) (position - current)), eB)
      else (sB, some (setBoundary (DNode.text j s) (position - current)))
    else
      makeLoop (pushKids (DNode.text j s) sib rest) (current + s.length)
        position start endP sB eB
  | (DNode.br j :: sib) :: rest =>
    if current + 1 >= position then
      if hps : position = start then
        if hne : endP ≠ start then
          makeLoop ((DNode.br j :: sib) :: rest) current endP start endP
            (some (setBoundary (DNode.br j) 0)) eB
        else (some (setBoundary (DNode.br j) 0), eB)
      else (sB, some (setBoundary (DNode.br j) 0))
    else
      makeLoop (pushKids (DNode.br j) sib rest) (current + 1) position start
        endP sB eB
  | (DNode.elem j ks :: sib) :: rest =>
    makeLoop (pushKids (DNode.elem j ks) sib rest) current position start endP
      sB eB
termination_by 2 * stackW stack + stack.length + (if position = start then 1 else 0)
decreasing_by
  all_goals first
    | (simp [stackW]; omega)
    | (simp only [if_neg hne, if_pos hps]; omega)
    | exact Nat.add_lt_add_right (measure_pushKids _ sib rest) _

/-- A built DOM `Range`: its start and end boundary points. -/
structure RangeB : Type where
  s : Bd
  e : Bd
deriving DecidableEq

/-- Interpret the set-once boundary pair produced by `makeLoop` as a DOM
range: if only the start was set the range is collapsed at it (that is what
`setStart` does to a fresh range); if nothing was set the range stays at
`(document, 0)`. -/
def finishRange : Option Bd × Option Bd → RangeB
  | (some s, some e) => ⟨s, e⟩
  | (some s, none) => ⟨s, s⟩
  | (none, _) => ⟨.docStart, .docStart⟩

/-- `makeRange` (part_001 lines 86-145).  `element` is given by its child
list; `start` may be negative (clamped to 0); a falsy (`0`/absent) or
negative `end` collapses to `start`. -/
def makeRange (kids : List DNode) (start : Int) (endO : Option Int) : RangeB :=
  let s : Int := if start ≤ 0 then 0 else start
  let e : Int := match endO with
    | none => s
    | some v => if v = 0 ∨ v < 0 then s else v
  finishRange (makeLoop [kids] 0 s.toNat s.toNat e.toNat none none)

/-- Result of scanning one subtree for a boundary: either the boundary was
found and `pre` is the text (text-node data only, as `Range.toString()`
concatenates) strictly before it inside this subtree, or the boundary is not
in this subtree and `full` is the subtree's whole text. -/
inductive TbRes : Type where
  | found (pre : Str)
  | missed (full : Str)
deriving DecidableEq

mutual
/-- Scan a node for a boundary, accumulating `Range.toString()` text:
`<br>` contributes nothing to a range's string value (only text-node data
does), which is exactly why the range-based `getPosition` of part_001
disagrees with `toString` on `<br>` markers. -/
def tbNode (b : Bd) : DNode → TbRes
  | .text j s =>
    match b with
    | .inNode i off => if i = j then .found (s.take off) else .missed s
    | .after i => if i = j then .found s else .missed s
    | .docStart => .missed s
  | .br j =>
    match b with
    | .inNode i _ => if i = j then .found [] else .missed []
    | .after i => if i = j then .found [] else .missed []
    | .docStart => .missed []
  | .elem j ks =>
    match b with
    | .inNode i off =>
      if i = j then .found (tcTextL (ks.take off)) else tbList b ks
    | .after i => if i = j then .found (tcTextL ks) else tbList b ks
    | .docStart => tbList b ks
def tbList (b : Bd) : List DNode → TbRes
  | [] => .missed []
  | n :: r =>
    match tbNode b n with
    | .found p => .found p
    | .missed full =>
      match tbList b r with
      | .found p => .found (full ++ p)
      | .missed fr => .missed (full ++ fr)
end

/-- The string value of the range from `(element, 0)` to the boundary `b`
(`untilRange.toString()` in part_001's `getPosition`): all text-node data
strictly before `b` in document order.  A fresh-range boundary
(`docStart`) makes the until-range collapsed, hence empty. -/
def textBefore (kids : List DNode) (b : Bd) : Str :=
  match b with
  | .docStart => []
  | _ =>
    match tbList b kids with
    | .found p => p
    | .missed full => full

/-- `Position` (part_001 lines 3-8). `position` is `Int` because `update`
adds a possibly negative length delta to it. -/
structure PositionR : Type where
  position : Int
  extent : Nat
  content : Str
  line : Nat
deriving DecidableEq

/-- `getPosition` (part_001 lines 69-84), reading the current selection
range `rng`: the offset is the length of the stringified range from the
element start to the selection start; `extent` is the length of the
stringified selection when not collapsed; `content`/`line` come from
splitting on newlines. -/
def getPosition (kids : List DNode) (rng : RangeB) : PositionR :=
  let extent :=
    if rng.s ≠ rng.e then
      (textBefore kids rng.e).length - (textBefore kids rng.s).length
    else 0
  let content := textBefore kids rng.s
  let position := content.length
  let lines := content.splitOn '\n'
  let line := lines.length - 1
  { position := (position : Int), extent := extent,
    content := lines.getLastD [], line := line }

/-- `edit.update` (part_001 lines 203-212): recompute the caret via the
length-delta approximation, store it as the session position and report it
to `onChange` together with the new content.  Returns
`(stored position, (onChange content, onChange position))`. -/
def update (kids : List DNode) (rng : RangeB) (content : Str) :
    PositionR × (Str × PositionR) :=
  let position := getPosition kids rng
  let prevContent := toString kids
  let position1 := { position with
    position := position.position +
      ((content.length : Int) - (prevContent.length : Int)) }
  (position1, (content, position1))


/-- "Ends with exactly one line separator": the last character is a newline
and the one before it (if any) is not. -/
def endsWithExactlyOneNl (s : Str) : Prop :=
  s.getLast? = some '\n' ∧ s.dropLast.getLast? ≠ some '\n'

/-- The C2 composition: build a collapsed range at linear offset `o`
(`makeRange`), then read the linear position of that range back
(`getPosition`). -/
def roundTrip (kids : List DNode) (o : Nat) : Int :=
  (getPosition kids (makeRange kids (o : Int) none)).position

instance (s : Str) : Decidable (endsWithExactlyOneNl s) := by
  unfold endsWithExactlyOneNl
  infer_instance

/-! ### Auxiliary structural definitions for the round-trip analysis -/

mutual
def noBRn : DNode → Bool
  | .text _ _ => true
  | .br _ => false
  | .elem _ ks => noBRl ks
def noBRl : List DNode → Bool
  | [] => true
  | n :: r => noBRn n && noBRl r
end

mutual
def hasTextN : DNode → Bool
  | .text _ _ => true
  | .br _ => false
  | .elem _ ks => hasTextL ks
def hasTextL : List DNode → Bool
  | [] => false
  | n :: r => hasTextN n || hasTextL r
end

mutual
def idsOf : DNode → List Nat
  | .text j _ => [j]
  | .br j => [j]
  | .elem j ks => j :: idsOfL ks
def idsOfL : List DNode → List Nat
  | [] => []
  | n :: r => idsOf n ++ idsOfL r
end

def bdId : Bd → Option Nat
  | .inNode i _ => some i
  | .after i => some i
  | .docStart => none

inductive FindRes : Type where
  | found (b : Bd)
  | missed (cur : Nat)
deriving DecidableEq

def findB : List DNode → Nat → Nat → FindRes
  | [], cur, _ => .missed cur
  | DNode.text j s :: rest, cur, pos =>
    if cur + s.length >= pos then .found (setBoundary (DNode.text j s) (pos - cur))
    else findB rest (cur + s.length) pos
  | DNode.br j :: rest, cur, pos =>
    if cur + 1 >= pos then .found (setBoundary (DNode.br j) 0)
    else findB rest (cur + 1) pos
  | DNode.elem j ks :: rest, cur, pos =>
    match findB ks cur pos with
    | .found b => .found b
    | .missed cur2 => findB rest cur2 pos

/-! ## The mutation model (C1, C8)

Native edits mutate the observed tree; each mutation is captured as one
`MRecord` (a DOM `MutationRecord`): the target node, the prior text value
for character-data records, the removed nodes with the sibling anchor they
were removed before, and the ids of added nodes.  `flushChanges` (part_001
lines 345-369 / useEditable.ts lines 351-375) pops the queue and rolls each
record back.

The mutation language `MOp`:
* `setText` models a character-data edit of a text leaf,
* `insertNode` models `insertBefore`/`appendChild` of a freshly created
  node (the hook itself only ever inserts fresh text nodes; node moves are
  outside the model),
* `removeNode` models `removeChild`,
* `removeAll` models `node.textContent = ''`, which per the DOM replace-all
  algorithm removes every child and queues a single record listing all
  of them with a `null` `nextSibling`.
-/

structure MRecord : Type where
  target : Nat
  oldValue : Option Str
  removed : List DNode
  nextSib : Option Nat
  added : List Nat

inductive MOp : Type where
  | setText (tgt : Nat) (s : Str)
  | insertNode (tgt : Nat) (anchor : Option Nat) (node : DNode)
  | removeNode (tgt : Nat) (child : Nat)
  | removeAll (tgt : Nat)

/- Whether the subtree of a node contains the id `i`. -/
mutual
def containsId : DNode → Nat → Bool
  | .text j _, i => j = i
  | .br j, i => j = i
  | .elem j ks, i => j = i || containsIdL ks i
def containsIdL : List DNode → Nat → Bool
  | [], _ => false
  | n :: r, i => containsId n i || containsIdL r i
end

/- Apply a node-reference operation `h` to the node with id `i` (DOM
methods are invoked on node references; with pairwise distinct ids the id
determines the node).  The traversal descends into the first subtree
containing `i`. -/
mutual
def updateNode {A : Type} (h : DNode → Option (DNode × A)) (i : Nat) :
    DNode → Option (DNode × A)
  | .text j s => if j = i then h (.text j s) else none
  | .br j => if j = i then h (.br j) else none
  | .elem j ks =>
    if j = i then h (.elem j ks)
    else (updateNodeL h i ks).map fun x => (.elem j x.1, x.2)
def updateNodeL {A : Type} (h : DNode → Option (DNode × A)) (i : Nat) :
    List DNode → Option (List DNode × A)
  | [] => none
  | n :: r =>
    if containsId n i then (updateNode h i n).map fun x => (x.1 :: r, x.2)
    else (updateNodeL h i r).map fun x => (n :: x.1, x.2)
end

/-- `parent.insertBefore(node, anchor)` on a child list: insert before the
child with id `anchor`, or append when the anchor is `null`; fails when the
anchor is not a child. -/
def insertBeforeAux : List DNode → DNode → Nat → Option (List DNode)
  | [], _, _ => none
  | k :: kr, node, a =>
    if k.nid = a then some (node :: k :: kr)
    else (insertBeforeAux kr node a).map fun l => k :: l

def insertBeforeL (ks : List DNode) (node : DNode) :
    Option Nat → Option (List DNode)
  | none => some (ks ++ [node])
  | some a => insertBeforeAux ks node a

/-- `parent.removeChild(child)` on a child list: remove the child with id `c`,
returning the new list, the removed subtree and the id of the sibling that
followed it (the record's `nextSibling`). -/
def removeChildL : List DNode → Nat → Option (List DNode × DNode × Option Nat)
  | [], _ => none
  | k :: kr, c =>
    if k.nid = c then some (kr, k, kr.head?.map DNode.nid)
    else (removeChildL kr c).map fun x => (k :: x.1, x.2)

def setTextH (s : Str) (n : DNode) : Option (DNode × Str) :=
  match n with
  | .text j old => some (.text j s, old)
  | _ => none

def insertH (node : DNode) (anchor : Option Nat) (n : DNode) :
    Option (DNode × Unit) :=
  match n with
  | .elem j ks => (insertBeforeL ks node anchor).map fun ks2 => (.elem j ks2, ())
  | _ => none

def removeH (c : Nat) (n : DNode) : Option (DNode × DNode × Option Nat) :=
  match n with
  | .elem j ks => (removeChildL ks c).map fun x => (.elem j x.1, x.2)
  | _ => none

def removeAllH (n : DNode) : Option (DNode × List DNode) :=
  match n with
  | .elem j ks => some (.elem j [], ks)
  | _ => none

def setTextOp (t : DNode) (tgt : Nat) (s : Str) : Option (DNode × Str) :=
  updateNode (setTextH s) tgt t

def insertBeforeOp (t : DNode) (tgt : Nat) (node : DNode)
    (anchor : Option Nat) : Option DNode :=
  (updateNode (insertH node anchor) tgt t).map fun x => x.1

def removeChildOp (t : DNode) (tgt c : Nat) :
    Option (DNode × DNode × Option Nat) :=
  (updateNode (removeH c) tgt t).map fun x => (x.1, x.2)

def removeAllOp (t : DNode) (tgt : Nat) : Option (DNode × List DNode) :=
  updateNode removeAllH tgt t

/-- Pairwise-distinct node ids: the model's stand-in for distinct node
object identities. -/
def wf (t : DNode) : Prop := (idsOf t).Nodup

/-- Apply one mutation and capture its record.  Inserted nodes must be
fresh (distinct ids not yet in the tree): the hook only inserts
freshly-created text nodes. -/
def applyOp (t : DNode) : MOp → Option (DNode × MRecord)
  | .setText tgt s =>
    (setTextOp t tgt s).map fun x => (x.1, ⟨tgt, some x.2, [], none, []⟩)
  | .insertNode tgt anchor node =>
    if (idsOf node).Nodup ∧ ∀ x ∈ idsOf node, x ∉ idsOf t then
      (insertBeforeOp t tgt node anchor).map
        fun t2 => (t2, ⟨tgt, none, [], anchor, [node.nid]⟩)
    else none
  | .removeNode tgt c =>
    (removeChildOp t tgt c).map
      fun x => (x.1, ⟨tgt, none, [x.2.1], x.2.2, []⟩)
  | .removeAll tgt =>
    (removeAllOp t tgt).map fun x => (x.1, ⟨tgt, none, x.2, none, []⟩)

/-- Apply a sequence of mutations, collecting the records in arrival
order (the observer queue). -/
def applyOps (t : DNode) : List MOp → Option (DNode × List MRecord)
  | [] => some (t, [])
  | op :: ops => do
    let x ← applyOp t op
    let y ← applyOps x.1 ops
    pure (y.1, x.2 :: y.2)

/-- `mutation.target.textContent = mutation.oldValue` for a character-data
record (its target is a text node). -/
def setTextContent (t : DNode) (tgt : Nat) (s : Str) : Option DNode :=
  (setTextOp t tgt s).map fun x => x.1

/-- ```js
for (i = mutation.removedNodes.length - 1; i >= 0; i--)
  mutation.target.insertBefore(mutation.removedNodes[i], mutation.nextSibling);
```
The loop runs over the *reversed* removed list (descending index), each
insertion going directly before the fixed recorded anchor. -/
def reinsertRemoved (t : DNode) (tgt : Nat) (nextSib : Option Nat) :
    List DNode → Option DNode
  | [] => some t
  | node :: rest => do
    let t1 ← insertBeforeOp t tgt node nextSib
    reinsertRemoved t1 tgt nextSib rest

/- The id of the parent of node `c`, `null` for the root or a node not in
the tree (`node.parentNode`). -/
mutual
def parentOf : DNode → Nat → Option Nat
  | .text _ _, _ => none
  | .br _, _ => none
  | .elem j ks, c =>
    if ks.any (fun k => k.nid = c) then some j else parentOfL ks c
def parentOfL : List DNode → Nat → Option Nat
  | [], _ => none
  | n :: r, c =>
    match parentOf n c with
    | some p => some p
    | none => parentOfL r c
end

/-- ```js
for (i = mutation.addedNodes.length - 1; i >= 0; i--)
  if (mutation.addedNodes[i].parentNode)
    mutation.target.removeChild(mutation.addedNodes[i]);
```
Again over the reversed added list; the `parentNode` guard skips nodes
that are no longer attached.  `removeChild` on a node that is not a child
of the target throws in the DOM, hence `Option`. -/
def removeAdded (t : DNode) (tgt : Nat) : List Nat → Option DNode
  | [] => some t
  | i :: rest =>
    if (parentOf t i).isSome then do
      let x ← removeChildOp t tgt i
      removeAdded x.1 tgt rest
    else removeAdded t tgt rest

/-- Roll back one `MRecord` (the body of the `while` loop in
`flushChanges`). -/
def rollbackRecord (t : DNode) (m : MRecord) : Option DNode := do
  let t1 ← match m.oldValue with
    | some old => setTextContent t m.target old
    | none => some t
  let t2 ← reinsertRemoved t1 m.target m.nextSib m.removed.reverse
  removeAdded t2 m.target m.added.reverse

/-- The rollback loop of `flushChanges`: `while ((mutation = queue.pop()))`
pops the *last* record first, so the queue (in arrival order) is rolled
back in reverse arrival order. -/
def flushRollback (t : DNode) : List MRecord → Option DNode
  | [] => some t
  | r :: rest => do
    let t1 ← flushRollback t rest
    rollbackRecord t1 r


/-! ## Lemmas about the history machinery -/

theorem jget_some_bounds {π γ : Type} {l : List (Option (π × γ))} {i : Int}
    {e : π × γ} (h : jget l i = some e) : 0 ≤ i ∧ i.toNat < l.length := by
  by_cases hi : i < 0
  · simp [jget, getAt, hi] at h
  · refine ⟨le_of_not_lt hi, ?_⟩
    simp only [jget, getAt, hi, if_false, if_neg] at h
    by_cases hl : i.toNat < l.length
    · exact hl
    · rw [List.get?_eq_none.mpr (le_of_not_lt hl)] at h
      simp at h

theorem setSplice_length {π γ : Type} (l : List (Option (π × γ))) (n : Nat)
    (e : π × γ) : (setSplice l n e).length = n + 1 := by
  simp [setSplice]
  omega

theorem setSplice_get {π γ : Type} (l : List (Option (π × γ))) (n : Nat)
    (e : π × γ) : (setSplice l n e).get? n = some (some e) := by
  have hlen : (l.take n ++ List.replicate (n - l.length) (none : Option (π × γ))).length = n := by
    simp
    omega
  rw [setSplice, List.get?_append_right (le_of_eq hlen), hlen]
  simp

theorem trackState_guard {π γ : Type} [DecidableEq γ] (st : TrackSt π γ)
    (a : Attempt π γ) (h : a.element = false ∨ st.position = none) :
    trackState st a = st := by
  rcases h with h | h <;> simp [trackState, h]

theorem trackState_suppressed {π γ : Type} [DecidableEq γ] (st : TrackSt π γ)
    (a : Attempt π γ) (hel : a.element = true) (p : π)
    (hpos : st.position = some p)
    (h : debouncedB st a = true ∨ dedupedB st a = true) :
    trackState st a = { st with ts := some a.time } := by
  rcases h with h | h <;> simp [trackState, hel, hpos, h]

theorem undo_some {π γ : Type} {st : TrackSt π γ} {e : π × γ}
    (h : jget st.history (st.historyAt - 1) = some e) :
    undo st =
      ({ st with
          historyAt := st.historyAt - 1
          position := some e.1 }, some e) := by
  simp [undo, h]

theorem undo_none {π γ : Type} {st : TrackSt π γ}
    (h : jget st.history (st.historyAt - 1) = none) :
    undo st = ({ st with historyAt := (0 : Int) }, none) := by
  simp [undo, h]

theorem redo_some {π γ : Type} {st : TrackSt π γ} {e : π × γ}
    (h : jget st.history (st.historyAt + 1) = some e) :
    redo st =
      ({ st with
          historyAt := st.historyAt + 1
          position := some e.1 }, some e) := by
  simp [redo, h]

theorem redo_none {π γ : Type} {st : TrackSt π γ}
    (h : jget st.history (st.historyAt + 1) = none) :
    redo st = ({ st with historyAt := (st.history.length : Int) - 1 }, none) := by
  simp [redo, h]

theorem trackState_record {π γ : Type} [DecidableEq γ] (st : TrackSt π γ)
    (a : Attempt π γ) (hel : a.element = true) (p : π)
    (hpos : st.position = some p) (hdeb : debouncedB st a = false)
    (hded : dedupedB st a = false) :
    trackState st a =
      (if st.historyAt + 1 > 500 then
        { st with
            history := (setSplice st.history (st.historyAt + 1).toNat
              (a.pos, a.content)).drop 1,
            historyAt := st.historyAt + 1 - 1 }
      else
        { st with
            history := setSplice st.history (st.historyAt + 1).toNat
              (a.pos, a.content),
            historyAt := st.historyAt + 1 }) := by
  simp [trackState, hel, hpos, hdeb, hded]

/-! ## C4: history debounce -/

set_option maxRecDepth 8000 in
/-- The exact history contents after the C4 scenario: all four attempts
record (the timestamp is never assigned on the record path, and
`NaN < 500` is `false` while it is still `undefined`). -/
theorem c4Run_history :
    c4Run.history =
      [some ((), ['a']), some ((), ['b']), some ((), ['c']), some ((), ['d'])] ∧
    c4Run.ts = none := by
  constructor <;> decide

set_option maxRecDepth 8000 in
/-- C4, counterexample: the claim says the snapshots attempted at
t = 0, 100, 200, 600 with pairwise distinct content and no force leave
exactly 2 retained history entries; in fact all four are retained, because
`_trackStateTimestamp` is only ever assigned on the suppressed path and is
still `undefined` (so the debounce comparison is `NaN < 500 = false`)
whenever every previous attempt recorded. -/
theorem c4_debounce_counterexample :
    c4Run.history.length = 4 ∧ ¬ (c4Run.history.length = 2) := by
  constructor <;> decide

/-- C4, amended: recording without force is a no-op exactly when less than
500ms have elapsed since the last *suppressed* attempt (the debounce
timestamp is updated only when an attempt is suppressed, never when it
records); consequently the snapshots attempted at t = 0, 100, 200, 600 with
pairwise distinct content and no force all record, leaving 4 retained
entries. -/
theorem c4_debounce_amended :
    (c4Run.history =
      [some ((), ['a']), some ((), ['b']), some ((), ['c']), some ((), ['d'])]) ∧
    (∀ (π γ : Type) [DecidableEq γ] (st : TrackSt π γ) (a : Attempt π γ)
      (p : π) (t0 : Int),
      a.element = true → st.position = some p → a.ignoreTimestamp = false →
      st.ts = some t0 → a.time - t0 < 500 →
      trackState st a = { st with ts := some a.time }) := by
  constructor
  · exact c4Run_history.1
  · intro π γ _ st a p t0 hel hpos hign hts hlt
    refine trackState_suppressed st a hel p hpos (Or.inl ?_)
    simp [debouncedB, hign, hts, hlt]

/-- Witness for `c4_debounce_amended`. -/
theorem c4_debounce_amended_witness :
    trackState
      ({ history := [], historyAt := -1, position := some (), ts := some 0 } :
        TrackSt Unit Nat)
      { element := true, content := 5, pos := (), time := 100,
        ignoreTimestamp := false } =
      { history := [], historyAt := -1, position := some (), ts := some 100 } :=
  c4_debounce_amended.2 Unit Nat _ _ () 0 rfl rfl rfl rfl (by decide)

/-! ## C5: history capacity -/

theorem c5Hist_length (n : Nat) : (c5Hist n).length = n := by simp [c5Hist]

theorem c5Hist_jget (m : Nat) (hm0 : m ≠ 0) :
    jget (c5Hist m) ((m : Int) - 1) = some ((), m - 1) := by
  have hneg : ¬ ((m : Int) - 1 < 0) := by omega
  simp only [jget, getAt, hneg, if_neg]
  have htn : ((m : Int) - 1).toNat = m - 1 := by omega
  rw [htn, c5Hist, List.get?_eq_getElem?, List.getElem?_map,
    List.getElem?_range (by omega : m - 1 < m)]
  rfl

theorem c5_step (m : Nat) (hm0 : m ≠ 0) :
    trackState
      { history := c5Hist m, historyAt := (m : Int) - 1, position := some (),
        ts := none }
      (c5Attempt m) =
    (if ((m : Int) - 1 + 1) > 500 then
      { history := (setSplice (c5Hist m) m ((), m)).drop 1,
        historyAt := (m : Int) - 1 + 1 - 1, position := some (), ts := none }
    else
      { history := setSplice (c5Hist m) m ((), m),
        historyAt := (m : Int) - 1 + 1, position := some (), ts := none }) := by
  have hne : ¬ (m - 1 = m) := by omega
  have hded : dedupedB
      { history := c5Hist m, historyAt := (m : Int) - 1,
        position := some (), ts := none } (c5Attempt m) = false := by
    simp only [dedupedB, c5Attempt]
    rw [c5Hist_jget m hm0]
    simp [hne]
  have hat : ((m : Int) - 1 + 1).toNat = m := by omega
  rw [trackState_record _ _ rfl () rfl (by simp [debouncedB, c5Attempt]) hded]
  dsimp only [c5Attempt]
  rw [hat]

theorem c5Hist_setSplice (m : Nat) :
    setSplice (c5Hist m) m ((), m) = c5Hist (m + 1) := by
  simp only [setSplice, c5Hist_length, Nat.sub_self, List.replicate_zero,
    List.append_nil]
  rw [List.take_of_length_le (le_of_eq (c5Hist_length m))]
  rw [c5Hist, c5Hist, List.range_succ, List.map_append]
  simp

theorem c5_state (n : Nat) (hn : n ≤ 501) :
    runAttempts (initSt ()) ((List.range n).map c5Attempt) =
      { history := c5Hist n, historyAt := (n : Int) - 1, position := some (),
        ts := none } := by
  induction n with
  | zero => rfl
  | succ m ih =>
    have hm : m ≤ 501 := Nat.le_of_succ_le hn
    simp only [runAttempts] at ih ⊢
    rw [List.range_succ, List.map_append, List.foldl_append, ih hm]
    simp only [List.map_cons, List.map_nil, List.foldl_cons, List.foldl_nil]
    rcases Nat.eq_zero_or_pos m with h0 | hpos
    · subst h0; rfl
    · rw [c5_step m (Nat.pos_iff_ne_zero.mp hpos)]
      have h500 : ¬ ((m : Int) - 1 + 1 > 500) := by omega
      rw [if_neg h500, c5Hist_setSplice]
      have : ((m : Int) - 1 + 1) = ((m + 1 : Nat) : Int) - 1 := by push_cast; ring
      rw [this]

theorem runAttempts_succ (n : Nat) :
    runAttempts (initSt () : TrackSt Unit Nat) ((List.range (n+1)).map c5Attempt) =
      trackState (runAttempts (initSt ()) ((List.range n).map c5Attempt))
        (c5Attempt n) := by
  simp only [runAttempts]
  rw [List.range_succ, List.map_append, List.foldl_append]
  simp only [List.map_cons, List.map_nil, List.foldl_cons, List.foldl_nil]

theorem c5_final : c5Run.history.length = 501 ∧ c5Run.historyAt = 500 := by
  have h501 := c5_state 501 (by omega)
  have hrun : c5Run = trackState (runAttempts (initSt ())
      ((List.range 501).map c5Attempt)) (c5Attempt 501) := by
    show runAttempts (initSt ()) ((List.range 502).map c5Attempt) = _
    exact runAttempts_succ 501
  rw [hrun, h501, c5_step 501 (by omega)]
  rw [if_pos (by omega)]
  constructor
  · simp [setSplice_length]
  · norm_num

/-- C5, counterexample: 502 successive records (distinct contents, forced,
starting from the empty history) leave 501 retained entries, so the claimed
capacity bound of 500 is violated — eviction only fires once the new
index exceeds 500. -/
theorem c5_capacity_counterexample :
    c5Run.history.length = 501 ∧ ¬ (c5Run.history.length ≤ 500) := by
  refine ⟨c5_final.1, ?_⟩
  rw [c5_final.1]
  omega

/-- C5, amended: the history stack never holds more than **501** entries
(the eviction fires only when the new entry's index exceeds 500, leaving
501 entries); every record inserts at `historyAt + 1`, discards all forward
entries, and on eviction the oldest entry is dropped while the index is
decremented, so the index still addresses the just-recorded entry.  States
satisfying `histInv` (≤ 501 entries, index within `[-1, 500]`) are closed
under `trackState`, `undo` and `redo`, and the just-recorded entry is
always found at the new index. -/
theorem c5_capacity_amended :
    (∀ (π γ : Type) [DecidableEq γ] (st : TrackSt π γ) (a : Attempt π γ),
      histInv st → histInv (trackState st a)) ∧
    (∀ (π γ : Type) (st : TrackSt π γ),
      histInv st → histInv (undo st).1 ∧ histInv (redo st).1) ∧
    (∀ (π γ : Type) [DecidableEq γ] (st : TrackSt π γ) (a : Attempt π γ) (p : π),
      -1 ≤ st.historyAt →
      a.element = true → st.position = some p →
      debouncedB st a = false → dedupedB st a = false →
      jget (trackState st a).history (trackState st a).historyAt =
        some (a.pos, a.content)) := by
  refine ⟨?_, ?_, ?_⟩
  · intro π γ _ st a hinv
    obtain ⟨hlen, hlo, hhi⟩ := hinv
    by_cases hel : a.element = true
    · rcases hp : st.position with _ | p
      · rw [trackState_guard st a (Or.inr hp)]; exact ⟨hlen, hlo, hhi⟩
      · by_cases hsup : debouncedB st a = true ∨ dedupedB st a = true
        · rw [trackState_suppressed st a hel p hp hsup]
          exact ⟨hlen, hlo, hhi⟩
        · push_neg at hsup
          rw [trackState_record st a hel p hp
            (by simpa using hsup.1) (by simpa using hsup.2)]
          by_cases hgt : st.historyAt + 1 > 500
          · rw [if_pos hgt]
            refine ⟨?_, by dsimp only; omega, by dsimp only; omega⟩
            dsimp only
            simp only [List.length_drop, setSplice_length]
            omega
          · rw [if_neg hgt]
            refine ⟨?_, by dsimp only; omega, by dsimp only; omega⟩
            dsimp only
            simp only [setSplice_length]
            omega
    · rw [trackState_guard st a (Or.inl (by simpa using hel))]
      exact ⟨hlen, hlo, hhi⟩
  · intro π γ st hinv
    obtain ⟨hlen, hlo, hhi⟩ := hinv
    constructor
    · rcases hj : jget st.history (st.historyAt - 1) with _ | e
      · rw [undo_none hj]
        exact ⟨hlen, by dsimp only; omega, by dsimp only; omega⟩
      · rw [undo_some hj]
        obtain ⟨h0, hlt⟩ := jget_some_bounds hj
        exact ⟨hlen, by dsimp only; omega, by dsimp only; omega⟩
    · rcases hj : jget st.history (st.historyAt + 1) with _ | e
      · rw [redo_none hj]
        exact ⟨hlen, by dsimp only; omega, by dsimp only; omega⟩
      · rw [redo_some hj]
        obtain ⟨h0, hlt⟩ := jget_some_bounds hj
        refine ⟨hlen, by dsimp only; omega, ?_⟩
        dsimp only
        omega
  · intro π γ _ st a p hlo hel hp hdeb hded
    rw [trackState_record st a hel p hp hdeb hded]
    by_cases hgt : st.historyAt + 1 > 500
    · rw [if_pos hgt]
      simp only [jget, getAt]
      rw [if_neg (by omega : ¬ (st.historyAt + 1 - 1 < 0))]
      have h1 : (st.historyAt + 1 - 1).toNat = (st.historyAt + 1).toNat - 1 := by
        omega
      rw [h1, List.get?_drop]
      have h2 : 1 + ((st.historyAt + 1).toNat - 1) = (st.historyAt + 1).toNat := by
        omega
      rw [h2, setSplice_get]
      rfl
    · rw [if_neg hgt]
      simp only [jget, getAt]
      rw [if_neg (by omega : ¬ (st.historyAt + 1 < 0))]
      rw [setSplice_get]
      rfl

/-- Witness for `c5_capacity_amended`. -/
theorem c5_capacity_amended_witness :
    histInv (trackState (initSt () : TrackSt Unit Nat) (c5Attempt 0)) :=
  c5_capacity_amended.1 Unit Nat (initSt ()) (c5Attempt 0)
    ⟨by decide, by decide, by decide⟩

/-! ## C6: undo/redo boundary clamping -/

/-- C6, confirmed: with history `[A, B, C]` at index 2, three undos emit
`B`, then `A`, then nothing (the index clamps at 0); two redos then emit
`B` and `C`.  In general an undo at index 0 and a redo at the top index are
exact no-ops (clamped, nothing emitted, never an error). -/
theorem c6_undo_redo_clamping :
    (undo c6St).2 = some ((), ['B']) ∧
    (undo (undo c6St).1).2 = some ((), ['A']) ∧
    (undo (undo (undo c6St).1).1).2 = none ∧
    (undo (undo (undo c6St).1).1).1.historyAt = 0 ∧
    (redo (undo (undo (undo c6St).1).1).1).2 = some ((), ['B']) ∧
    (redo (redo (undo (undo (undo c6St).1).1).1).1).2 = some ((), ['C']) ∧
    (∀ (π γ : Type) (st : TrackSt π γ),
      st.historyAt = 0 → undo st = (st, none)) ∧
    (∀ (π γ : Type) (st : TrackSt π γ),
      st.historyAt = (st.history.length : Int) - 1 → redo st = (st, none)) := by
  refine ⟨by decide, by decide, by decide, by decide, by decide, by decide,
    ?_, ?_⟩
  · intro π γ st h
    have hj : jget st.history (st.historyAt - 1) = none := by
      rw [h]
      simp [jget, getAt]
    rw [undo_none hj, ← h]
  · intro π γ st h
    have hj : jget st.history (st.historyAt + 1) = none := by
      rw [h]
      have he : ((st.history.length : Int) - 1 + 1) = (st.history.length : Int) := by
        ring
      rw [he]
      simp only [jget, getAt]
      rw [if_neg (by omega : ¬ ((st.history.length : Int) < 0))]
      rw [Int.toNat_natCast, List.get?_eq_none.mpr (le_refl _)]
      rfl
    rw [redo_none hj, ← h]

/-- Witness for `c6_undo_redo_clamping`. -/
theorem c6_undo_redo_clamping_witness :
    undo ({ history := [], historyAt := 0, position := none, ts := none } :
        TrackSt Unit Nat) =
      ({ history := [], historyAt := 0, position := none, ts := none }, none) :=
  c6_undo_redo_clamping.2.2.2.2.2.2.1 Unit Nat _ rfl

/-! ## C10: no history while unfocused -/

/-- C10, confirmed: `trackState` is a no-op whenever the element ref is
empty or the stored session position is unset, and an unfocused session
(`position = none`) accumulates no history regardless of how many attempts
are made. -/
theorem c10_no_history_when_unfocused :
    (∀ (π γ : Type) [DecidableEq γ] (st : TrackSt π γ) (a : Attempt π γ),
      a.element = false ∨ st.position = none → trackState st a = st) ∧
    (∀ (π γ : Type) [DecidableEq γ] (st : TrackSt π γ)
      (as : List (Attempt π γ)),
      st.position = none → runAttempts st as = st) := by
  constructor
  · intro π γ _ st a h
    exact trackState_guard st a h
  · intro π γ _ st as hpos
    induction as with
    | nil => rfl
    | cons a as ih =>
      simp only [runAttempts, List.foldl_cons]
      rw [trackState_guard st a (Or.inr hpos)]
      exact ih

/-- Witness for `c10_no_history_when_unfocused`. -/
theorem c10_no_history_when_unfocused_witness :
    runAttempts
      ({ history := [], historyAt := -1, position := none, ts := none } :
        TrackSt Unit Nat)
      [mkAttempt 0 () 0, mkAttempt 1 () 1000] =
      { history := [], historyAt := -1, position := none, ts := none } :=
  c10_no_history_when_unfocused.2 Unit Nat _ _ rfl

end UseEditable

namespace UseEditable

/-! ## C3: trailing separator -/

/-- C3, counterexample: when the last leaf's text already ends in two
newline characters, `toString` appends nothing and the result ends with two
line separators, not exactly one. -/
theorem c3_trailing_counterexample :
    toString [DNode.text 1 ['a', '\n', '\n']] = ['a', '\n', '\n'] ∧
    ¬ endsWithExactlyOneNl (toString [DNode.text 1 ['a', '\n', '\n']]) := by
  have h : toString [DNode.text 1 ['a', '\n', '\n']] = ['a', '\n', '\n'] := by
    simp [toString, rawContent, toStringLoop, pushKids]
  refine ⟨h, ?_⟩
  rw [h]
  decide

/-- C3, amended: `toString` always ends with **at least** one line
separator: exactly one is appended when the projected content does not
already end with a newline, but a last leaf already ending in newlines
keeps all of them. -/
theorem c3_trailing_amended :
    ∀ kids : List DNode,
      (toString kids).getLast? = some '\n' ∧
      ((rawContent kids).getLast? ≠ some '\n' →
        endsWithExactlyOneNl (toString kids)) := by
  intro kids
  constructor
  · by_cases h : (rawContent kids).getLast? = some '\n'
    · simp [toString, h]
    · simp [toString, h, List.getLast?_concat]
  · intro h
    simp only [toString, h, if_neg, if_false]
    constructor
    · simp [List.getLast?_concat]
    · simpa [List.dropLast_concat] using h

/-- Witness for `c3_trailing_amended`. -/
theorem c3_trailing_amended_witness :
    endsWithExactlyOneNl (toString [DNode.text 1 ['a']]) :=
  (c3_trailing_amended [DNode.text 1 ['a']]).2
    (by simp [rawContent, toStringLoop, pushKids])

/-! ## C7: update's length-delta caret -/

/-- C7, confirmed: `update(c)` reports to `onChange` (and stores as the
session position) exactly the current caret offset plus the length delta
`len(c) - len(current canonical text)`. -/
theorem c7_update_length_delta :
    ∀ (kids : List DNode) (rng : RangeB) (c : Str),
      (update kids rng c).1 = (update kids rng c).2.2 ∧
      (update kids rng c).2.1 = c ∧
      (update kids rng c).1.position =
        (getPosition kids rng).position +
          ((c.length : Int) - ((toString kids).length : Int)) := by
  intro kids rng c
  exact ⟨rfl, rfl, rfl⟩

/-! ## C9: a falsy end collapses makeRange -/

set_option maxHeartbeats 1000000 in
/-- When `end == start`, the loop of `makeRange` never sets the end
boundary: the first boundary hit takes the `position === start` branch and
breaks. -/
theorem makeLoop_end_none (stack : List (List DNode)) (cur pos st en : Nat)
    (sB eB : Option Bd) (hp : pos = st) (he : en = st) (he2 : eB = none) :
    (makeLoop stack cur pos st en sB eB).2 = none := by
  induction stack, cur, pos, st, en, sB, eB using makeLoop.induct <;>
    (intros; subst_vars; try simp_all [makeLoop]) <;>
    (rw [if_neg (by omega)]; assumption)

theorem finishRange_collapsed (p : Option Bd × Option Bd) (h : p.2 = none) :
    (finishRange p).s = (finishRange p).e := by
  obtain ⟨s, e⟩ := p
  simp only at h
  subst h
  cases s <;> rfl

/-- C9, confirmed: `makeRange(element, start, 0)` with `start > 0` is the
same range as `makeRange(element, start)` (a falsy `end` is replaced by
`start`), and it is collapsed — not an empty or inverted range `[start, 0)`. -/
theorem c9_falsy_end_collapses :
    ∀ (kids : List DNode) (start : Int), 0 < start →
      makeRange kids start (some 0) = makeRange kids start none ∧
      (makeRange kids start (some 0)).s = (makeRange kids start (some 0)).e := by
  intro kids start _
  constructor
  · simp [makeRange]
  · simp only [makeRange]
    apply finishRange_collapsed
    apply makeLoop_end_none <;> simp

/-- Witness for `c9_falsy_end_collapses`. -/
theorem c9_falsy_end_collapses_witness :
    makeRange [DNode.text 1 ['a']] 1 (some 0) =
      makeRange [DNode.text 1 ['a']] 1 none ∧
    (makeRange [DNode.text 1 ['a']] 1 (some 0)).s =
      (makeRange [DNode.text 1 ['a']] 1 (some 0)).e :=
  c9_falsy_end_collapses [DNode.text 1 ['a']] 1 (by decide)

end UseEditable

namespace UseEditable

/-! ## C2: the round-trip law -/

-- L0
mutual
theorem noText_tcText (n : DNode) (h : hasTextN n = false) : tcText n = [] := by
  cases n with
  | text j s => simp [hasTextN] at h
  | br j => rfl
  | elem j ks => exact noText_tcTextL ks (by simpa [hasTextN] using h)
theorem noText_tcTextL (ns : List DNode) (h : hasTextL ns = false) :
    tcTextL ns = [] := by
  cases ns with
  | nil => rfl
  | cons n r =>
    simp [hasTextL] at h
    simp [tcTextL, noText_tcText n h.1, noText_tcTextL r h.2]
end

-- M2: a boundary whose id is not in a subtree is missed by the scan,
-- accumulating the subtree's whole text.
mutual
theorem tb_missed (b : Bd) (n : DNode)
    (h : ∀ i, bdId b = some i → i ∉ idsOf n) : tbNode b n = .missed (tcText n) := by
  cases n with
  | text j s =>
    cases b with
    | inNode i off =>
      have : i ≠ j := by
        intro he; exact h i rfl (by simp [idsOf, he])
      simp [tbNode, tcText, this]
    | after i =>
      have : i ≠ j := by
        intro he; exact h i rfl (by simp [idsOf, he])
      simp [tbNode, tcText, this]
    | docStart => simp [tbNode, tcText]
  | br j =>
    cases b with
    | inNode i off =>
      have : i ≠ j := by
        intro he; exact h i rfl (by simp [idsOf, he])
      simp [tbNode, tcText, this]
    | after i =>
      have : i ≠ j := by
        intro he; exact h i rfl (by simp [idsOf, he])
      simp [tbNode, tcText, this]
    | docStart => simp [tbNode, tcText]
  | elem j ks =>
    have hks : tbList b ks = .missed (tcTextL ks) := by
      apply tbList_missed
      intro i hi hmem
      exact h i hi (by simp [idsOf, hmem])
    cases b with
    | inNode i off =>
      have : i ≠ j := by
        intro he; exact h i rfl (by simp [idsOf, he])
      simp [tbNode, tcText, this, hks]
    | after i =>
      have : i ≠ j := by
        intro he; exact h i rfl (by simp [idsOf, he])
      simp [tbNode, tcText, this, hks]
    | docStart => simp [tbNode, tcText, hks]
theorem tbList_missed (b : Bd) (ns : List DNode)
    (h : ∀ i, bdId b = some i → i ∉ idsOfL ns) :
    tbList b ns = .missed (tcTextL ns) := by
  cases ns with
  | nil => rfl
  | cons n r =>
    have hn : tbNode b n = .missed (tcText n) := by
      apply tb_missed
      intro i hi hmem
      exact h i hi (by simp [idsOfL, hmem])
    have hr : tbList b r = .missed (tcTextL r) := by
      apply tbList_missed
      intro i hi hmem
      exact h i hi (by simp [idsOfL, hmem])
    simp [tbList, hn, hr, tcTextL]
end

-- findB produces a boundary whose id lies in the forest
theorem findB_found_id (ns : List DNode) (cur pos : Nat) (b : Bd)
    (h : findB ns cur pos = .found b) : ∃ i, bdId b = some i ∧ i ∈ idsOfL ns := by
  induction ns, cur, pos using findB.induct generalizing b with
  | case1 cur pos => simp [findB] at h
  | case2 j s rest cur pos hge =>
    rw [findB, if_pos hge] at h
    injection h with hb
    subst hb
    refine ⟨j, ?_, by simp [idsOfL, idsOf]⟩
    simp only [setBoundary]
    split <;> rfl
  | case3 j s rest cur pos hge ih =>
    rw [findB, if_neg hge] at h
    obtain ⟨i, h1, h2⟩ := ih b h
    exact ⟨i, h1, by simp [idsOfL, idsOf, h2]⟩
  | case4 j rest cur pos hge =>
    rw [findB, if_pos hge] at h
    injection h with hb
    subst hb
    refine ⟨j, ?_, by simp [idsOfL, idsOf]⟩
    simp only [setBoundary]
    split <;> rfl
  | case5 j rest cur pos hge ih =>
    rw [findB, if_neg hge] at h
    obtain ⟨i, h1, h2⟩ := ih b h
    exact ⟨i, h1, by simp [idsOfL, idsOf, h2]⟩
  | case6 j ks rest cur pos b2 hks ihks =>
    rw [findB, hks] at h
    injection h with hb
    subst hb
    obtain ⟨i, h1, h2⟩ := ihks b2 hks
    exact ⟨i, h1, by simp [idsOfL, idsOf, h2]⟩
  | case7 j ks rest cur pos cur2 hks ihks ihrest =>
    rw [findB, hks] at h
    obtain ⟨i, h1, h2⟩ := ihrest b h
    exact ⟨i, h1, by simp [idsOfL, idsOf, h2]⟩

-- L1: a missed scan of a BR-free forest ends exactly at cur + text length;
-- it never overtakes pos.
theorem findB_missed_cur (ns : List DNode) (cur pos cur2 : Nat)
    (hbr : noBRl ns = true) (h : findB ns cur pos = .missed cur2) :
    cur2 = cur + (tcTextL ns).length ∧ (cur ≤ pos → cur2 ≤ pos) := by
  induction ns, cur, pos using findB.induct generalizing cur2 with
  | case1 cur pos =>
    simp [findB] at h
    simp [tcTextL, h]
  | case2 j s rest cur pos hge => rw [findB, if_pos hge] at h; exact absurd h (by simp)
  | case3 j s rest cur pos hge ih =>
    rw [findB, if_neg hge] at h
    have hbr' : noBRl rest = true := by simpa [noBRl, noBRn] using hbr
    obtain ⟨h1, h2⟩ := ih cur2 hbr' h
    constructor
    · simp [tcTextL, tcText, h1]; omega
    · intro _; exact h2 (by omega)
  | case4 j rest cur pos hge => simp [noBRl, noBRn] at hbr
  | case5 j rest cur pos hge ih => simp [noBRl, noBRn] at hbr
  | case6 j ks rest cur pos b2 hks ihks =>
    rw [findB, hks] at h
    exact absurd h (by simp)
  | case7 j ks rest cur pos cmid hks ihks ihrest =>
    rw [findB, hks] at h
    have hbrk : noBRl ks = true := by simp [noBRl, noBRn] at hbr; exact hbr.1
    have hbrr : noBRl rest = true := by simp [noBRl, noBRn] at hbr; exact hbr.2
    obtain ⟨hk1, hk2⟩ := ihks cmid hbrk hks
    obtain ⟨h1, h2⟩ := ihrest cur2 hbrr h
    constructor
    · simp [tcTextL, tcText, h1, hk1]; omega
    · intro hc; exact h2 (hk2 hc)

-- L2: if the forest has a text node and pos is within reach, findB finds.
theorem findB_finds (ns : List DNode) (cur pos : Nat)
    (hbr : noBRl ns = true) (htx : hasTextL ns = true)
    (hle : pos ≤ cur + (tcTextL ns).length) :
    ∃ b, findB ns cur pos = .found b := by
  induction ns, cur, pos using findB.induct with
  | case1 cur pos => simp [hasTextL] at htx
  | case2 j s rest cur pos hge => exact ⟨_, by rw [findB, if_pos hge]⟩
  | case3 j s rest cur pos hge ih =>
    rw [Nat.not_le] at hge
    have hbr' : noBRl rest = true := by simp [noBRl, noBRn] at hbr; exact hbr
    have htx' : hasTextL rest = true := by
      by_contra hfalse
      rw [Bool.not_eq_true] at hfalse
      have := noText_tcTextL rest hfalse
      simp [tcTextL, tcText, this] at hle
      omega
    have hle' : pos ≤ cur + s.length + (tcTextL rest).length := by
      simp [tcTextL, tcText] at hle
      omega
    obtain ⟨b, hb⟩ := ih hbr' htx' hle'
    exact ⟨b, by rw [findB, if_neg (by omega)]; exact hb⟩
  | case4 j rest cur pos hge => simp [noBRl, noBRn] at hbr
  | case5 j rest cur pos hge ih => simp [noBRl, noBRn] at hbr
  | case6 j ks rest cur pos b2 hks ihks =>
    exact ⟨b2, by rw [findB, hks]⟩
  | case7 j ks rest cur pos cmid hks ihks ihrest =>
    have hbrk : noBRl ks = true := by simp [noBRl, noBRn] at hbr; exact hbr.1
    have hbrr : noBRl rest = true := by simp [noBRl, noBRn] at hbr; exact hbr.2
    obtain ⟨hk1, _⟩ := findB_missed_cur ks cur pos cmid (by simp [noBRl, noBRn] at hbr; exact hbr.1) hks
    have htxr : hasTextL rest = true := by
      by_contra hfalse
      rw [Bool.not_eq_true] at hfalse
      have h0 := noText_tcTextL rest hfalse
      -- then all the text is in ks; but findB ks missed, so pos > cur + |tcTextL ks|
      -- unless ks also has no text... in either case contradiction or pos ≤ cmid
      by_cases htxk : hasTextL ks = true
      · -- pos ≤ cur + |tcTextL ns| = cur + |tcTextL ks| = cmid, so findB ks finds
        have : pos ≤ cur + (tcTextL ks).length := by
          simp [tcTextL, tcText, h0] at hle
          omega
        obtain ⟨b, hb⟩ := ihks hbrk htxk this
        rw [hb] at hks
        exact absurd hks (by simp)
      · rw [Bool.not_eq_true] at htxk
        simp [hasTextL, hasTextN, htxk, hfalse] at htx
    have hler : pos ≤ cmid + (tcTextL rest).length := by
      simp [tcTextL, tcText] at hle
      omega
    obtain ⟨b, hb⟩ := ihrest hbrr htxr hler
    exact ⟨b, by rw [findB, hks]; exact hb⟩

theorem nodup_cons_parts (n : DNode) (r : List DNode)
    (h : (idsOfL (n :: r)).Nodup) :
    (idsOf n).Nodup ∧ (idsOfL r).Nodup ∧ ∀ i, i ∈ idsOf n → i ∉ idsOfL r := by
  rw [show idsOfL (n :: r) = idsOf n ++ idsOfL r from rfl,
    List.nodup_append] at h
  exact ⟨h.1, h.2.1, fun i hi => h.2.2 hi⟩

theorem nodup_elem_parts (j : Nat) (ks : List DNode)
    (h : (idsOf (DNode.elem j ks)).Nodup) :
    (idsOfL ks).Nodup ∧ j ∉ idsOfL ks := by
  rw [show idsOf (DNode.elem j ks) = j :: idsOfL ks from rfl,
    List.nodup_cons] at h
  exact ⟨h.2, h.1⟩

-- L3: the boundary found by findB scans back (via tbList) to a prefix whose
-- length is exactly pos - cur.
theorem findB_tb (ns : List DNode) (cur pos : Nat) (b : Bd)
    (hbr : noBRl ns = true) (hnd : (idsOfL ns).Nodup) (hcur : cur ≤ pos)
    (h : findB ns cur pos = .found b) :
    ∃ p : Str, tbList b ns = .found p ∧ cur + p.length = pos := by
  induction ns, cur, pos using findB.induct generalizing b with
  | case1 cur pos => simp [findB] at h
  | case2 j s rest cur pos hge =>
    rw [findB, if_pos hge] at h
    injection h with hb
    subst hb
    by_cases hlt : pos - cur < s.length
    · refine ⟨s.take (pos - cur), ?_, ?_⟩
      · simp [tbList, tbNode, setBoundary, hlt, tcText, DNode.nid]
      · simp [List.length_take]
        omega
    · have hps : pos = cur + s.length := by omega
      refine ⟨s, ?_, by omega⟩
      simp [tbList, tbNode, setBoundary, hlt, tcText, DNode.nid]
  | case3 j s rest cur pos hge ih =>
    rw [findB, if_neg hge] at h
    rw [Nat.not_le] at hge
    have hbr' : noBRl rest = true := by simpa [noBRl, noBRn] using hbr
    obtain ⟨hn1, hn2, hdisj⟩ := nodup_cons_parts _ _ hnd
    obtain ⟨p', htb', hlen'⟩ := ih b hbr' hn2 (by omega) h
    obtain ⟨i, hbi, hmem⟩ := findB_found_id rest (cur + s.length) pos b h
    have hmiss : tbNode b (DNode.text j s) = .missed s := by
      apply tb_missed
      intro i' hi' hmem'
      rw [hbi] at hi'
      injection hi' with hii
      subst hii
      exact hdisj i hmem' hmem
    refine ⟨s ++ p', ?_, ?_⟩
    · simp [tbList, hmiss, htb']
    · simp
      omega
  | case4 j rest cur pos hge => simp [noBRl, noBRn] at hbr
  | case5 j rest cur pos hge ih => simp [noBRl, noBRn] at hbr
  | case6 j ks rest cur pos b2 hks ihks =>
    rw [findB, hks] at h
    injection h with hb
    subst hb
    have hbrk : noBRl ks = true := by simp [noBRl, noBRn] at hbr; exact hbr.1
    obtain ⟨hn1, hn2, hdisj⟩ := nodup_cons_parts _ _ hnd
    obtain ⟨hk, hjk⟩ := nodup_elem_parts j ks hn1
    obtain ⟨p, htb, hlen⟩ := ihks b2 hbrk hk hcur hks
    obtain ⟨i, hbi, hmem⟩ := findB_found_id ks cur pos b2 hks
    have hij : i ≠ j := by
      intro he
      exact hjk (he ▸ hmem)
    have hnode : tbNode b2 (DNode.elem j ks) = .found p := by
      cases b2 with
      | inNode i2 off =>
        injection hbi with hii
        subst hii
        simp [tbNode, hij, htb]
      | after i2 =>
        injection hbi with hii
        subst hii
        simp [tbNode, hij, htb]
      | docStart => simp [bdId] at hbi
    exact ⟨p, by simp [tbList, hnode], hlen⟩
  | case7 j ks rest cur pos cmid hks ihks ihrest =>
    rw [findB, hks] at h
    have hbrk : noBRl ks = true := by simp [noBRl, noBRn] at hbr; exact hbr.1
    have hbrr : noBRl rest = true := by simp [noBRl, noBRn] at hbr; exact hbr.2
    obtain ⟨hc1, hc2⟩ := findB_missed_cur ks cur pos cmid hbrk hks
    obtain ⟨hn1, hn2, hdisj⟩ := nodup_cons_parts _ _ hnd
    obtain ⟨p', htb', hlen'⟩ := ihrest b hbrr hn2 (hc2 hcur) h
    obtain ⟨i, hbi, hmem⟩ := findB_found_id rest cmid pos b h
    have hmiss : tbNode b (DNode.elem j ks) = .missed (tcTextL ks) := by
      have hmain := tb_missed b (DNode.elem j ks) ?side
      case side =>
        intro i' hi' hmem'
        rw [hbi] at hi'
        injection hi' with hii
        subst hii
        exact hdisj i hmem' hmem
      simpa [tcText] using hmain
    refine ⟨tcTextL ks ++ p', ?_, ?_⟩
    · simp [tbList, hmiss, htb']
    · simp
      omega

theorem makeLoop_skip_empty (stk : List (List DNode)) (cur pos st en : Nat)
    (sB eB : Option Bd) :
    makeLoop ([] :: stk) cur pos st en sB eB = makeLoop stk cur pos st en sB eB := by
  rw [makeLoop]

/-- Decomposition of the collapsed `makeRange` loop: scanning the first
cursor is the structural search `findB`; on a miss the loop continues with
the rest of the stack at the advanced offset. -/
theorem makeLoop_eq_findB (l : List DNode) (cur pos : Nat) :
    ∀ stk, makeLoop (l :: stk) cur pos pos pos none none =
      (match findB l cur pos with
       | .found b => (some b, none)
       | .missed cur2 => makeLoop stk cur2 pos pos pos none none) := by
  induction l, cur, pos using findB.induct with
  | case1 cur pos =>
    intro stk
    rw [makeLoop_skip_empty, findB]
  | case2 j s tail cur pos hge =>
    intro stk
    rw [makeLoop, findB]
    simp [hge]
  | case3 j s tail cur pos hge ih =>
    intro stk
    rw [makeLoop, if_neg hge, findB, if_neg hge]
    cases tail with
    | nil =>
      show makeLoop (pushKids (DNode.text j s) [] stk) _ _ _ _ _ _ = _
      rw [show pushKids (DNode.text j s) [] stk = stk from rfl]
      simp only [findB]
    | cons t ts =>
      show makeLoop (pushKids (DNode.text j s) (t :: ts) stk) _ _ _ _ _ _ = _
      rw [show pushKids (DNode.text j s) (t :: ts) stk = (t :: ts) :: stk from rfl]
      exact ih stk
  | case4 j tail cur pos hge =>
    intro stk
    rw [makeLoop, findB]
    simp [hge]
  | case5 j tail cur pos hge ih =>
    intro stk
    rw [makeLoop, if_neg hge, findB, if_neg hge]
    cases tail with
    | nil =>
      show makeLoop (pushKids (DNode.br j) [] stk) _ _ _ _ _ _ = _
      rw [show pushKids (DNode.br j) [] stk = stk from rfl]
      simp only [findB]
    | cons t ts =>
      show makeLoop (pushKids (DNode.br j) (t :: ts) stk) _ _ _ _ _ _ = _
      rw [show pushKids (DNode.br j) (t :: ts) stk = (t :: ts) :: stk from rfl]
      exact ih stk
  | case6 j ks tail cur pos b2 hks ihks =>
    intro stk
    rw [makeLoop, findB, hks]
    cases ks with
    | nil => rw [findB] at hks; exact absurd hks (by simp)
    | cons k kr =>
      cases tail with
      | nil =>
        rw [show pushKids (DNode.elem j (k :: kr)) [] stk = (k :: kr) :: stk from rfl]
        rw [ihks stk, hks]
      | cons t ts =>
        rw [show pushKids (DNode.elem j (k :: kr)) (t :: ts) stk =
          (k :: kr) :: (t :: ts) :: stk from rfl]
        rw [ihks ((t :: ts) :: stk), hks]
  | case7 j ks tail cur pos cmid hks ihks ihtail =>
    intro stk
    rw [makeLoop, findB, hks]
    cases ks with
    | nil =>
      rw [findB] at hks
      injection hks with hc
      subst hc
      cases tail with
      | nil =>
        rw [show pushKids (DNode.elem j []) [] stk = stk from rfl]
        simp only [findB]
      | cons t ts =>
        rw [show pushKids (DNode.elem j []) (t :: ts) stk = (t :: ts) :: stk from rfl]
        exact ihtail stk
    | cons k kr =>
      cases tail with
      | nil =>
        rw [show pushKids (DNode.elem j (k :: kr)) [] stk = (k :: kr) :: stk from rfl]
        rw [ihks stk, hks]
        simp only [findB]
      | cons t ts =>
        rw [show pushKids (DNode.elem j (k :: kr)) (t :: ts) stk =
          (k :: kr) :: (t :: ts) :: stk from rfl]
        rw [ihks ((t :: ts) :: stk), hks]
        exact ihtail stk

theorem textBefore_of_found (kids : List DNode) (b : Bd) (i : Nat) (p : Str)
    (hb : bdId b = some i) (h : tbList b kids = .found p) :
    textBefore kids b = p := by
  cases b with
  | inNode i2 off => simp [textBefore, h]
  | after i2 => simp [textBefore, h]
  | docStart => simp [bdId] at hb

/-- C2, amended: for BR-free trees with distinct node ids and offsets within
the tree's actual text length, the round trip is exact. -/
theorem c2_roundtrip_amended :
    ∀ (kids : List DNode) (o : Nat),
      noBRl kids = true → (idsOfL kids).Nodup → o ≤ (tcTextL kids).length →
      roundTrip kids o = o := by
  intro kids o hbr hnd ho
  have hs : (if (o : Int) ≤ 0 then (0 : Int) else (o : Int)).toNat = o := by
    split <;> omega
  have hmr : makeRange kids (o : Int) none =
      (match findB kids 0 o with
       | .found b => ⟨b, b⟩
       | .missed _ => ⟨.docStart, .docStart⟩) := by
    rw [makeRange]
    simp only [hs]
    rw [makeLoop_eq_findB kids 0 o []]
    cases hf : findB kids 0 o with
    | found b => rfl
    | missed cur2 => simp only [makeLoop]; rfl
  rw [roundTrip, hmr]
  cases hf : findB kids 0 o with
  | found b =>
    obtain ⟨p, htb, hlen⟩ := findB_tb kids 0 o b hbr hnd (Nat.zero_le o) hf
    obtain ⟨i, hbi, _⟩ := findB_found_id kids 0 o b hf
    have htbf := textBefore_of_found kids b i p hbi htb
    simp only [getPosition, ne_eq, not_true_eq_false, if_false, htbf]
    simp
    omega
  | missed cur2 =>
    have ho0 : o = 0 := by
      by_cases htx : hasTextL kids = true
      · obtain ⟨b, hb⟩ := findB_finds kids 0 o hbr htx (by omega)
        rw [hb] at hf
        exact absurd hf (by simp)
      · rw [Bool.not_eq_true] at htx
        have := noText_tcTextL kids htx
        rw [this] at ho
        simpa using ho
    subst ho0
    simp [getPosition, textBefore]

end UseEditable

namespace UseEditable

/-- C2, counterexample: the round trip fails (a) at `o = len(S)` when the
tree's own text lacks the trailing newline that `toString` synthesizes
(the loop runs out of nodes and the fresh range stays at the document
start), and (b) at offsets beyond a `<br>` marker, because the range-based
`getPosition` stringifies ranges, and `<br>` contributes nothing to
`Range.toString()` while `toString` counts it as one newline. -/
theorem c2_roundtrip_counterexample :
    ((toString [DNode.text 1 ['a']]).length = 2 ∧
      roundTrip [DNode.text 1 ['a']] 2 = 0 ∧
      ¬ roundTrip [DNode.text 1 ['a']] 2 = 2) ∧
    ((toString [DNode.text 1 ['a'], DNode.br 2, DNode.text 3 ['b']]).length = 4 ∧
      roundTrip [DNode.text 1 ['a'], DNode.br 2, DNode.text 3 ['b']] 2 = 1 ∧
      ¬ roundTrip [DNode.text 1 ['a'], DNode.br 2, DNode.text 3 ['b']] 2 = 2) := by
  have hm1 : makeRange [DNode.text 1 ['a']] 2 none = ⟨.docStart, .docStart⟩ := by
    simp [makeRange, makeLoop, finishRange, setBoundary, tcText, pushKids,
      DNode.nid]
  have hm2 : makeRange [DNode.text 1 ['a'], DNode.br 2, DNode.text 3 ['b']] 2
      none = ⟨.after 2, .after 2⟩ := by
    simp [makeRange, makeLoop, finishRange, setBoundary, tcText, pushKids,
      DNode.nid]
  refine ⟨⟨?_, ?_, ?_⟩, ⟨?_, ?_, ?_⟩⟩
  · simp [toString, rawContent, toStringLoop, pushKids]
  · rw [roundTrip]
    show (getPosition _ (makeRange _ 2 none)).position = 0
    rw [hm1]
    decide
  · rw [roundTrip]
    show ¬ (getPosition _ (makeRange _ 2 none)).position = 2
    rw [hm1]
    decide
  · simp [toString, rawContent, toStringLoop, pushKids]
  · rw [roundTrip]
    show (getPosition _ (makeRange _ 2 none)).position = 1
    rw [hm2]
    decide
  · rw [roundTrip]
    show ¬ (getPosition _ (makeRange _ 2 none)).position = 2
    rw [hm2]
    decide

/-- Witness for `c2_roundtrip_amended`. -/
theorem c2_roundtrip_amended_witness :
    roundTrip [DNode.text 1 ['a', 'b'], DNode.elem 2 [DNode.text 3 ['c']]] 3 = 3 :=
  c2_roundtrip_amended [DNode.text 1 ['a', 'b'], DNode.elem 2 [DNode.text 3 ['c']]]
    3 (by decide) (by decide) (by decide)

end UseEditable



namespace UseEditable

theorem nid_mem_idsOf (n : DNode) : n.nid ∈ idsOf n := by
  cases n <;> simp [DNode.nid, idsOf]

mutual
theorem containsId_iff_mem (n : DNode) (x : Nat) :
    containsId n x = true ↔ x ∈ idsOf n := by
  cases n with
  | text j s => simp [containsId, idsOf, eq_comm]
  | br j => simp [containsId, idsOf, eq_comm]
  | elem j ks =>
    simp only [containsId, idsOf, Bool.or_eq_true, decide_eq_true_eq,
      containsIdL_iff_mem ks x, List.mem_cons]
    constructor
    · rintro (h | h)
      exacts [Or.inl h.symm, Or.inr h]
    · rintro (h | h)
      exacts [Or.inl h.symm, Or.inr h]
theorem containsIdL_iff_mem (ns : List DNode) (x : Nat) :
    containsIdL ns x = true ↔ x ∈ idsOfL ns := by
  cases ns with
  | nil => simp [containsIdL, idsOfL]
  | cons n r =>
    simp [containsIdL, idsOfL, containsId_iff_mem n x, containsIdL_iff_mem r x]
end

theorem mem_idsOfL_of_mem {ks : List DNode} {k : DNode} (hk : k ∈ ks)
    {x : Nat} (hx : x ∈ idsOf k) : x ∈ idsOfL ks := by
  induction ks with
  | nil => cases hk
  | cons a r ih =>
    rcases List.mem_cons.mp hk with hk2 | hk2
    · subst hk2
      simp [idsOfL, hx]
    · simp [idsOfL, ih hk2]

theorem idsOfL_append (l1 l2 : List DNode) :
    idsOfL (l1 ++ l2) = idsOfL l1 ++ idsOfL l2 := by
  induction l1 with
  | nil => simp [idsOfL]
  | cons n r ih => simp [idsOfL, ih]

end UseEditable

namespace UseEditable

theorem updateNode_nid {A : Type} {h : DNode → Option (DNode × A)} {i : Nat}
    {t t' : DNode} {a : A}
    (hpres : ∀ n n' a', h n = some (n', a') → DNode.nid n' = DNode.nid n)
    (hup : updateNode h i t = some (t', a)) : t'.nid = t.nid := by
  cases t with
  | text j s =>
    rw [updateNode] at hup
    split at hup
    · exact hpres _ _ _ hup
    · exact absurd hup (by simp)
  | br j =>
    rw [updateNode] at hup
    split at hup
    · exact hpres _ _ _ hup
    · exact absurd hup (by simp)
  | elem j ks =>
    rw [updateNode] at hup
    split at hup
    · exact hpres _ _ _ hup
    · rw [Option.map_eq_some'] at hup
      obtain ⟨x, _, hx⟩ := hup
      injection hx with h1 h2
      subst h1
      rfl

mutual
theorem updateNode_contains {A : Type} {h : DNode → Option (DNode × A)}
    {i : Nat} {t t' : DNode} {a : A}
    (hpres : ∀ n n' a', h n = some (n', a') → DNode.nid n' = DNode.nid n)
    (hup : updateNode h i t = some (t', a)) : containsId t' i = true := by
  cases t with
  | text j s =>
    rw [updateNode] at hup
    split at hup
    · next hji =>
      have h2 : t'.nid = j := hpres _ _ _ hup
      rw [containsId_iff_mem, ← hji, ← h2]
      exact nid_mem_idsOf t'
    · exact absurd hup (by simp)
  | br j =>
    rw [updateNode] at hup
    split at hup
    · next hji =>
      have h2 : t'.nid = j := hpres _ _ _ hup
      rw [containsId_iff_mem, ← hji, ← h2]
      exact nid_mem_idsOf t'
    · exact absurd hup (by simp)
  | elem j ks =>
    rw [updateNode] at hup
    split at hup
    · next hji =>
      have h2 : t'.nid = j := hpres _ _ _ hup
      rw [containsId_iff_mem, ← hji, ← h2]
      exact nid_mem_idsOf t'
    · next hji =>
      rw [Option.map_eq_some'] at hup
      obtain ⟨x, hx1, hx2⟩ := hup
      have hk := updateNodeL_contains hpres hx1
      injection hx2 with h1 h2
      subst h1
      simp [containsId, hk]
theorem updateNodeL_contains {A : Type} {h : DNode → Option (DNode × A)}
    {i : Nat} {ns ns' : List DNode} {a : A}
    (hpres : ∀ n n' a', h n = some (n', a') → DNode.nid n' = DNode.nid n)
    (hup : updateNodeL h i ns = some (ns', a)) : containsIdL ns' i = true := by
  cases ns with
  | nil => exact absurd hup (by simp [updateNodeL])
  | cons n r =>
    rw [updateNodeL] at hup
    split at hup
    · rw [Option.map_eq_some'] at hup
      obtain ⟨x, hx1, hx2⟩ := hup
      have := updateNode_contains hpres hx1
      injection hx2 with h1 h2
      subst h1
      simp [containsIdL, this]
    · rw [Option.map_eq_some'] at hup
      obtain ⟨x, hx1, hx2⟩ := hup
      have := updateNodeL_contains hpres hx1
      injection hx2 with h1 h2
      subst h1
      simp [containsIdL, this]
end

end UseEditable

namespace UseEditable

theorem updateNode_hit {A : Type} (h : DNode → Option (DNode × A)) (i : Nat)
    (t : DNode) (hni : t.nid = i) : updateNode h i t = h t := by
  cases t <;> (rw [updateNode]; simp_all [DNode.nid])

theorem updateNode_elem_else {A : Type} (h : DNode → Option (DNode × A))
    (i j : Nat) (ks : List DNode) (hne : ¬ j = i) :
    updateNode h i (.elem j ks) =
      (updateNodeL h i ks).map fun x => (.elem j x.1, x.2) := by
  rw [updateNode]
  simp [hne]

mutual
theorem updateNode_inv {A B : Type} {h : DNode → Option (DNode × A)}
    {h2 : DNode → Option (DNode × B)} {i : Nat} {a : A} {t0 : DNode}
    (hpres : ∀ n n' a', h n = some (n', a') → DNode.nid n' = DNode.nid n)
    (hinv : ∀ n n', (∀ x ∈ idsOf n, x ∈ idsOf t0) → (idsOf n).Nodup →
      h n = some (n', a) → ∃ b : B, h2 n' = some (n, b))
    (t t' : DNode) (hsub : ∀ x ∈ idsOf t, x ∈ idsOf t0)
    (hnd : (idsOf t).Nodup) (hup : updateNode h i t = some (t', a)) :
    ∃ b : B, updateNode h2 i t' = some (t, b) := by
  cases t with
  | text j s =>
    rw [updateNode] at hup
    split at hup
    · next hji =>
      obtain ⟨b, hb⟩ := hinv _ _ hsub hnd hup
      refine ⟨b, ?_⟩
      rw [updateNode_hit h2 i t' (by rw [hpres _ _ _ hup]; exact hji)]
      exact hb
    · exact absurd hup (by simp)
  | br j =>
    rw [updateNode] at hup
    split at hup
    · next hji =>
      obtain ⟨b, hb⟩ := hinv _ _ hsub hnd hup
      refine ⟨b, ?_⟩
      rw [updateNode_hit h2 i t' (by rw [hpres _ _ _ hup]; exact hji)]
      exact hb
    · exact absurd hup (by simp)
  | elem j ks =>
    rw [updateNode] at hup
    split at hup
    · next hji =>
      obtain ⟨b, hb⟩ := hinv _ _ hsub hnd hup
      refine ⟨b, ?_⟩
      rw [updateNode_hit h2 i t' (by rw [hpres _ _ _ hup]; exact hji)]
      exact hb
    · next hji =>
      rw [Option.map_eq_some'] at hup
      obtain ⟨x, hx1, hx2⟩ := hup
      injection hx2 with h1 h2eq
      subst h1
      subst h2eq
      have hsub' : ∀ y ∈ idsOfL ks, y ∈ idsOf t0 := by
        intro y hy
        exact hsub y (by simp [idsOf, hy])
      have hnd' : (idsOfL ks).Nodup := by
        have : (idsOf (DNode.elem j ks)) = j :: idsOfL ks := rfl
        rw [this, List.nodup_cons] at hnd
        exact hnd.2
      obtain ⟨b, hb⟩ := updateNodeL_inv hpres hinv ks x.1 hsub' hnd' hx1
      refine ⟨b, ?_⟩
      rw [updateNode_elem_else h2 i j x.1 hji, hb]
      rfl
theorem updateNodeL_inv {A B : Type} {h : DNode → Option (DNode × A)}
    {h2 : DNode → Option (DNode × B)} {i : Nat} {a : A} {t0 : DNode}
    (hpres : ∀ n n' a', h n = some (n', a') → DNode.nid n' = DNode.nid n)
    (hinv : ∀ n n', (∀ x ∈ idsOf n, x ∈ idsOf t0) → (idsOf n).Nodup →
      h n = some (n', a) → ∃ b : B, h2 n' = some (n, b))
    (ns ns' : List DNode) (hsub : ∀ x ∈ idsOfL ns, x ∈ idsOf t0)
    (hnd : (idsOfL ns).Nodup) (hup : updateNodeL h i ns = some (ns', a)) :
    ∃ b : B, updateNodeL h2 i ns' = some (ns, b) := by
  cases ns with
  | nil => exact absurd hup (by simp [updateNodeL])
  | cons n r =>
    have hids : idsOfL (n :: r) = idsOf n ++ idsOfL r := rfl
    rw [hids, List.nodup_append] at hnd
    rw [updateNodeL] at hup
    split at hup
    · next hc =>
      rw [Option.map_eq_some'] at hup
      obtain ⟨x, hx1, hx2⟩ := hup
      injection hx2 with h1 h2eq
      subst h2eq
      have hsubn : ∀ y ∈ idsOf n, y ∈ idsOf t0 := by
        intro y hy
        exact hsub y (by rw [hids]; exact List.mem_append_left _ hy)
      obtain ⟨b, hb⟩ := updateNode_inv hpres hinv n x.1 hsubn hnd.1 hx1
      refine ⟨b, ?_⟩
      rw [← h1, updateNodeL]
      rw [if_pos (updateNode_contains hpres hx1), hb]
      rfl
    · next hc =>
      rw [Option.map_eq_some'] at hup
      obtain ⟨x, hx1, hx2⟩ := hup
      injection hx2 with h1 h2eq
      subst h2eq
      have hsubr : ∀ y ∈ idsOfL r, y ∈ idsOf t0 := by
        intro y hy
        exact hsub y (by rw [hids]; exact List.mem_append_right _ hy)
      obtain ⟨b, hb⟩ := updateNodeL_inv hpres hinv r x.1 hsubr hnd.2.1 hx1
      refine ⟨b, ?_⟩
      rw [← h1, updateNodeL]
      rw [if_neg hc, hb]
      rfl
end

end UseEditable

namespace UseEditable

mutual
theorem updateNode_perm {A : Type} {h : DNode → Option (DNode × A)} {i : Nat}
    {q1 q2 : A → List Nat}
    (hperm : ∀ n n' a', h n = some (n', a') →
      (idsOf n' ++ q1 a').Perm (idsOf n ++ q2 a')) :
    ∀ t t' (a : A), updateNode h i t = some (t', a) →
      (idsOf t' ++ q1 a).Perm (idsOf t ++ q2 a) := by
  intro t t' a hup
  cases t with
  | text j s =>
    rw [updateNode] at hup
    split at hup
    · exact hperm _ _ _ hup
    · exact absurd hup (by simp)
  | br j =>
    rw [updateNode] at hup
    split at hup
    · exact hperm _ _ _ hup
    · exact absurd hup (by simp)
  | elem j ks =>
    rw [updateNode] at hup
    split at hup
    · exact hperm _ _ _ hup
    · rw [Option.map_eq_some'] at hup
      obtain ⟨x, hx1, hx2⟩ := hup
      injection hx2 with h1 h2eq
      subst h1
      subst h2eq
      have hl := updateNodeL_perm hperm ks x.1 x.2 hx1
      show ((j :: idsOfL x.1) ++ q1 x.2).Perm ((j :: idsOfL ks) ++ q2 x.2)
      simpa using hl.cons j
theorem updateNodeL_perm {A : Type} {h : DNode → Option (DNode × A)} {i : Nat}
    {q1 q2 : A → List Nat}
    (hperm : ∀ n n' a', h n = some (n', a') →
      (idsOf n' ++ q1 a').Perm (idsOf n ++ q2 a')) :
    ∀ ns ns' (a : A), updateNodeL h i ns = some (ns', a) →
      (idsOfL ns' ++ q1 a).Perm (idsOfL ns ++ q2 a) := by
  intro ns ns' a hup
  cases ns with
  | nil => exact absurd hup (by simp [updateNodeL])
  | cons n r =>
    rw [updateNodeL] at hup
    split at hup
    · rw [Option.map_eq_some'] at hup
      obtain ⟨x, hx1, hx2⟩ := hup
      injection hx2 with h1 h2eq
      subst h1
      subst h2eq
      have hn := updateNode_perm hperm n x.1 x.2 hx1
      show ((idsOf x.1 ++ idsOfL r) ++ q1 x.2).Perm ((idsOf n ++ idsOfL r) ++ q2 x.2)
      have s1 : ((idsOf x.1 ++ idsOfL r) ++ q1 x.2).Perm ((idsOf x.1 ++ q1 x.2) ++ idsOfL r) := by
        simp only [List.append_assoc]
        exact List.Perm.append_left _ List.perm_append_comm
      have s2 : ((idsOf n ++ q2 x.2) ++ idsOfL r).Perm ((idsOf n ++ idsOfL r) ++ q2 x.2) := by
        simp only [List.append_assoc]
        exact List.Perm.append_left _ List.perm_append_comm
      exact s1.trans ((hn.append_right _).trans s2)
    · rw [Option.map_eq_some'] at hup
      obtain ⟨x, hx1, hx2⟩ := hup
      injection hx2 with h1 h2eq
      subst h1
      subst h2eq
      have hr := updateNodeL_perm hperm r x.1 x.2 hx1
      show ((idsOf n ++ idsOfL x.1) ++ q1 x.2).Perm ((idsOf n ++ idsOfL r) ++ q2 x.2)
      simp only [List.append_assoc]
      exact List.Perm.append_left _ hr
end

mutual
theorem updateNode_id {A : Type} {h : DNode → Option (DNode × A)} {i : Nat}
    {a : A} (hid : ∀ n n', h n = some (n', a) → n' = n) :
    ∀ t t', updateNode h i t = some (t', a) → t' = t := by
  intro t t' hup
  cases t with
  | text j s =>
    rw [updateNode] at hup
    split at hup
    · exact hid _ _ hup
    · exact absurd hup (by simp)
  | br j =>
    rw [updateNode] at hup
    split at hup
    · exact hid _ _ hup
    · exact absurd hup (by simp)
  | elem j ks =>
    rw [updateNode] at hup
    split at hup
    · exact hid _ _ hup
    · rw [Option.map_eq_some'] at hup
      obtain ⟨x, hx1, hx2⟩ := hup
      obtain ⟨x1, x2⟩ := x
      injection hx2 with h1 h2eq
      subst h1
      subst h2eq
      rw [updateNodeL_id hid ks x1 hx1]
theorem updateNodeL_id {A : Type} {h : DNode → Option (DNode × A)} {i : Nat}
    {a : A} (hid : ∀ n n', h n = some (n', a) → n' = n) :
    ∀ ns ns', updateNodeL h i ns = some (ns', a) → ns' = ns := by
  intro ns ns' hup
  cases ns with
  | nil => exact absurd hup (by simp [updateNodeL])
  | cons n r =>
    rw [updateNodeL] at hup
    split at hup
    · rw [Option.map_eq_some'] at hup
      obtain ⟨x, hx1, hx2⟩ := hup
      obtain ⟨x1, x2⟩ := x
      injection hx2 with h1 h2eq
      subst h1
      subst h2eq
      rw [updateNode_id hid n x1 hx1]
    · rw [Option.map_eq_some'] at hup
      obtain ⟨x, hx1, hx2⟩ := hup
      obtain ⟨x1, x2⟩ := x
      injection hx2 with h1 h2eq
      subst h1
      subst h2eq
      rw [updateNodeL_id hid r x1 hx1]
end

end UseEditable

namespace UseEditable

-- R3: insertion adds exactly the node's ids.
theorem insertBeforeL_perm (ks : List DNode) (node : DNode)
    (anchor : Option Nat) (ks2 : List DNode)
    (h : insertBeforeL ks node anchor = some ks2) :
    (idsOfL ks2).Perm (idsOfL ks ++ idsOf node) := by
  cases anchor with
  | none =>
    rw [insertBeforeL] at h
    injection h with h1
    subst h1
    rw [idsOfL_append]
    exact List.Perm.append_left _ (by simp [idsOfL])
  | some a =>
    rw [insertBeforeL] at h
    induction ks generalizing ks2 with
    | nil => exact absurd h (by simp [insertBeforeAux])
    | cons k kr ih =>
      rw [insertBeforeAux] at h
      split at h
      · injection h with h1
        subst h1
        show (idsOf node ++ (idsOf k ++ idsOfL kr)).Perm
          ((idsOf k ++ idsOfL kr) ++ idsOf node)
        exact List.perm_append_comm
      · rw [Option.map_eq_some'] at h
        obtain ⟨l, hl1, hl2⟩ := h
        subst hl2
        have := ih l hl1
        show (idsOf k ++ idsOfL l).Perm ((idsOf k ++ idsOfL kr) ++ idsOf node)
        simp only [List.append_assoc]
        exact List.Perm.append_left _ this

-- R4: removal removes exactly the subtree's ids.
theorem removeChildL_perm (ks : List DNode) (c : Nat) :
    ∀ ks' sub ns, removeChildL ks c = some (ks', sub, ns) →
      (idsOfL ks' ++ idsOf sub).Perm (idsOfL ks) := by
  induction ks with
  | nil => intro ks' sub ns h; exact absurd h (by simp [removeChildL])
  | cons k kr ih =>
    intro ks' sub ns h
    rw [removeChildL] at h
    split at h
    · injection h with h1
      injection h1 with ha hb
      injection hb with hb1 hb2
      subst ha
      subst hb1
      simp only [idsOfL]
      exact List.perm_append_comm
    · rw [Option.map_eq_some'] at h
      obtain ⟨x, hx1, hx2⟩ := h
      obtain ⟨x1, xs, xns⟩ := x
      injection hx2 with ha hb
      injection hb with hb1 hb2
      subst ha
      subst hb1
      subst hb2
      have := ih x1 xs xns hx1
      show ((idsOf k ++ idsOfL x1) ++ idsOf xs).Perm (idsOf k ++ idsOfL kr)
      simp only [List.append_assoc]
      exact List.Perm.append_left _ this

end UseEditable

namespace UseEditable

-- R1 helper: removing an appended fresh node.
theorem removeChildL_append (ks : List DNode) (node : DNode)
    (hfresh : ∀ k ∈ ks, k.nid ≠ node.nid) :
    removeChildL (ks ++ [node]) node.nid = some (ks, node, none) := by
  induction ks with
  | nil => simp [removeChildL]
  | cons k kr ih =>
    rw [List.cons_append, removeChildL,
      if_neg (by simpa using hfresh k (by simp))]
    rw [ih fun k2 hk2 => hfresh k2 (List.mem_cons_of_mem _ hk2)]
    rfl

-- R1: removing a freshly inserted node undoes the insertion.
theorem insert_remove_aux (node : DNode) (a : Nat) :
    ∀ (ks ks2 : List DNode), (∀ k ∈ ks, k.nid ≠ node.nid) →
      insertBeforeAux ks node a = some ks2 →
      ∃ ns, removeChildL ks2 node.nid = some (ks, node, ns) := by
  intro ks
  induction ks with
  | nil => intro ks2 _ h; exact absurd h (by simp [insertBeforeAux])
  | cons k kr ih =>
    intro ks2 hfresh h
    rw [insertBeforeAux] at h
    split at h
    · next hka =>
      injection h with h1
      subst h1
      refine ⟨some k.nid, ?_⟩
      rw [removeChildL, if_pos rfl]
      simp
    · next hka =>
      rw [Option.map_eq_some'] at h
      obtain ⟨l, hl1, hl2⟩ := h
      subst hl2
      obtain ⟨ns, hns⟩ :=
        ih l (fun k2 hk2 => hfresh k2 (List.mem_cons_of_mem _ hk2)) hl1
      refine ⟨ns, ?_⟩
      rw [removeChildL, if_neg (by simpa using hfresh k (by simp))]
      rw [hns]
      rfl

theorem insert_remove_inv (ks : List DNode) (node : DNode)
    (anchor : Option Nat) (ks2 : List DNode)
    (hfresh : ∀ k ∈ ks, k.nid ≠ node.nid)
    (h : insertBeforeL ks node anchor = some ks2) :
    ∃ ns, removeChildL ks2 node.nid = some (ks, node, ns) := by
  cases anchor with
  | none =>
    rw [insertBeforeL] at h
    injection h with h1
    subst h1
    exact ⟨none, removeChildL_append ks node hfresh⟩
  | some a =>
    rw [insertBeforeL] at h
    exact insert_remove_aux node a ks ks2 hfresh h

theorem removeChildL_sub (ks : List DNode) (c : Nat) :
    ∀ ks' sub ns, removeChildL ks c = some (ks', sub, ns) →
      ∀ k ∈ ks', k ∈ ks := by
  induction ks with
  | nil => intro ks' sub ns h; exact absurd h (by simp [removeChildL])
  | cons k kr ih =>
    intro ks' sub ns h
    rw [removeChildL] at h
    split at h
    · simp only [Option.some.injEq, Prod.mk.injEq] at h
      obtain ⟨rfl, rfl, rfl⟩ := h
      intro k2 hk2
      exact List.mem_cons_of_mem _ hk2
    · rw [Option.map_eq_some'] at h
      obtain ⟨x, hx1, hx2⟩ := h
      obtain ⟨x1, xs, xns⟩ := x
      simp only [Prod.mk.injEq] at hx2
      obtain ⟨rfl, rfl, rfl⟩ := hx2
      intro k2 hk2
      rcases List.mem_cons.mp hk2 with h2 | h2
      · subst h2; exact List.mem_cons_self _ _
      · exact List.mem_cons_of_mem _ (ih x1 xs xns hx1 k2 h2)

theorem removeChildL_ns_mem (ks : List DNode) (c : Nat) :
    ∀ ks' sub a, removeChildL ks c = some (ks', sub, some a) →
      ∃ k ∈ ks', k.nid = a := by
  induction ks with
  | nil => intro ks' sub a h; exact absurd h (by simp [removeChildL])
  | cons k kr ih =>
    intro ks' sub a h
    rw [removeChildL] at h
    split at h
    · simp only [Option.some.injEq, Prod.mk.injEq] at h
      obtain ⟨rfl, rfl, hns⟩ := h
      cases kr with
      | nil => simp at hns
      | cons k0 kr0 =>
        refine ⟨k0, by simp, ?_⟩
        simp at hns
        exact hns
    · rw [Option.map_eq_some'] at h
      obtain ⟨x, hx1, hx2⟩ := h
      obtain ⟨x1, xs, xns⟩ := x
      simp only [Prod.mk.injEq] at hx2
      obtain ⟨rfl, rfl, rfl⟩ := hx2
      obtain ⟨k0, hk0, hk0a⟩ := ih x1 xs a hx1
      exact ⟨k0, List.mem_cons_of_mem _ hk0, hk0a⟩

theorem nodupNids (ks : List DNode) (h : (idsOfL ks).Nodup) :
    (ks.map DNode.nid).Nodup := by
  induction ks with
  | nil => simp
  | cons k kr ih =>
    have hids : idsOfL (k :: kr) = idsOf k ++ idsOfL kr := rfl
    rw [hids, List.nodup_append] at h
    rw [List.map_cons, List.nodup_cons]
    refine ⟨?_, ih h.2.1⟩
    intro hmem
    rw [List.mem_map] at hmem
    obtain ⟨k2, hk2, hk2e⟩ := hmem
    exact h.2.2 (nid_mem_idsOf k) (hk2e ▸ mem_idsOfL_of_mem hk2 (nid_mem_idsOf k2))

-- R2: reinserting a removed child before its recorded next sibling undoes
-- the removal (needs pairwise distinct child ids).
theorem remove_insert_inv (ks : List DNode) (c : Nat)
    (hnd : (ks.map DNode.nid).Nodup) :
    ∀ ks' sub ns, removeChildL ks c = some (ks', sub, ns) →
      insertBeforeL ks' sub ns = some ks := by
  induction ks with
  | nil => intro ks' sub ns h; exact absurd h (by simp [removeChildL])
  | cons k kr ih =>
    intro ks' sub ns h
    rw [removeChildL] at h
    split at h
    · simp only [Option.some.injEq, Prod.mk.injEq] at h
      obtain ⟨rfl, rfl, rfl⟩ := h
      cases kr with
      | nil => rfl
      | cons k0 kr0 =>
        show insertBeforeL (k0 :: kr0) k (some k0.nid) = _
        rw [insertBeforeL, insertBeforeAux, if_pos rfl]
    · rw [Option.map_eq_some'] at h
      obtain ⟨x, hx1, hx2⟩ := h
      obtain ⟨x1, xs, xns⟩ := x
      simp only [Prod.mk.injEq] at hx2
      obtain ⟨rfl, rfl, rfl⟩ := hx2
      rw [List.map_cons, List.nodup_cons] at hnd
      have hrec := ih hnd.2 x1 xs xns hx1
      cases xns with
      | none =>
        rw [insertBeforeL] at hrec ⊢
        injection hrec with h2
        rw [List.cons_append, h2]
      | some a =>
        rw [insertBeforeL] at hrec ⊢
        have hka : ¬ k.nid = a := by
          intro he
          obtain ⟨k0, hk0, hk0a⟩ := removeChildL_ns_mem kr c x1 xs a hx1
          have hk0kr : k0 ∈ kr := removeChildL_sub kr c x1 xs (some a) hx1 k0 hk0
          exact hnd.1 (by rw [List.mem_map]; exact ⟨k0, hk0kr, hk0a.trans he.symm⟩)
        rw [insertBeforeAux, if_neg hka, hrec]
        rfl

end UseEditable

namespace UseEditable

-- `node.parentNode` is non-null for any node of the tree other than the root.
mutual
theorem parentOf_isSome (t : DNode) (c : Nat) (hc : containsId t c = true)
    (hne : c ≠ t.nid) : (parentOf t c).isSome := by
  cases t with
  | text j s => exact absurd (by simpa [containsId] using hc) (Ne.symm hne)
  | br j => exact absurd (by simpa [containsId] using hc) (Ne.symm hne)
  | elem j ks =>
    rw [parentOf]
    split
    · rfl
    · next hany =>
      have hnot : ∀ k ∈ ks, c ≠ k.nid := by
        intro k hk he
        exact hany (by rw [List.any_eq_true]; exact ⟨k, hk, by simp [he]⟩)
      have hcl : containsIdL ks c = true := by
        have : ¬ (j = c) := fun he => hne (by simp [DNode.nid, he])
        simpa [containsId, this] using hc
      exact parentOfL_isSome ks c hcl hnot
theorem parentOfL_isSome (ns : List DNode) (c : Nat)
    (hc : containsIdL ns c = true) (hne : ∀ n ∈ ns, c ≠ n.nid) :
    (parentOfL ns c).isSome := by
  cases ns with
  | nil => exact absurd hc (by simp [containsIdL])
  | cons n r =>
    rw [parentOfL]
    cases hp : parentOf n c with
    | some p => rfl
    | none =>
      have hcn : containsId n c = false := by
        by_contra hcc
        have := parentOf_isSome n c (by simpa using hcc)
          (hne n (List.mem_cons_self _ _))
        rw [hp] at this
        exact absurd this (by simp)
      have hcr : containsIdL r c = true := by
        simpa [containsIdL, hcn] using hc
      exact parentOfL_isSome r c hcr
        (fun m hm => hne m (List.mem_cons_of_mem _ hm))
end

-- Permutation facts for each node-level operation.
theorem setTextH_perm (s : Str) :
    ∀ n n' (a' : Str), setTextH s n = some (n', a') →
      (idsOf n' ++ (fun _ : Str => ([] : List Nat)) a').Perm
        (idsOf n ++ (fun _ : Str => ([] : List Nat)) a') := by
  intro n n' a' hn
  cases n <;> simp [setTextH] at hn
  obtain ⟨h1, h2⟩ := hn
  subst h1
  simp [idsOf]

theorem insertH_perm (node : DNode) (anchor : Option Nat) :
    ∀ n n' (a' : Unit), insertH node anchor n = some (n', a') →
      (idsOf n' ++ (fun _ : Unit => ([] : List Nat)) a').Perm
        (idsOf n ++ (fun _ : Unit => idsOf node) a') := by
  intro n n' a' hn
  cases n with
  | text j s => exact absurd hn (by simp [insertH])
  | br j => exact absurd hn (by simp [insertH])
  | elem j ks =>
    rw [insertH, Option.map_eq_some'] at hn
    obtain ⟨ks2, hks2, he⟩ := hn
    injection he with h1 h2
    subst h1
    show ((j :: idsOfL ks2) ++ []).Perm ((j :: idsOfL ks) ++ idsOf node)
    simpa using (insertBeforeL_perm ks node anchor ks2 hks2).cons j

theorem removeH_perm (c : Nat) :
    ∀ n n' (a' : DNode × Option Nat), removeH c n = some (n', a') →
      (idsOf n' ++ (fun a : DNode × Option Nat => idsOf a.1) a').Perm
        (idsOf n ++ (fun _ : DNode × Option Nat => ([] : List Nat)) a') := by
  intro n n' a' hn
  cases n with
  | text j s => exact absurd hn (by simp [removeH])
  | br j => exact absurd hn (by simp [removeH])
  | elem j ks =>
    rw [removeH, Option.map_eq_some'] at hn
    obtain ⟨z, hz, he⟩ := hn
    obtain ⟨z1, zs, zn⟩ := z
    injection he with h1 h2
    subst h1
    subst h2
    show ((j :: idsOfL z1) ++ idsOf zs).Perm ((j :: idsOfL ks) ++ [])
    simpa using (removeChildL_perm ks c z1 zs zn hz).cons j

theorem removeAllH_perm :
    ∀ n n' (a' : List DNode), removeAllH n = some (n', a') →
      (idsOf n' ++ (fun a : List DNode => idsOfL a) a').Perm
        (idsOf n ++ (fun _ : List DNode => ([] : List Nat)) a') := by
  intro n n' a' hn
  cases n with
  | text j s => exact absurd hn (by simp [removeAllH])
  | br j => exact absurd hn (by simp [removeAllH])
  | elem j ks =>
    rw [removeAllH] at hn
    injection hn with he
    injection he with h1 h2
    subst h1
    subst h2
    show ((j :: idsOfL ([] : List DNode)) ++ idsOfL ks).Perm ((j :: idsOfL ks) ++ [])
    simp [idsOfL]

/-- Each captured mutation keeps node ids pairwise distinct (well-formedness
is preserved along the observed run). -/
theorem applyOp_wf (t : DNode) (op : MOp) (t' : DNode) (m : MRecord)
    (hwf : wf t) (h : applyOp t op = some (t', m)) : wf t' := by
  cases op with
  | setText tgt s =>
    rw [applyOp, Option.map_eq_some'] at h
    obtain ⟨x, hx1, hx2⟩ := h
    injection hx2 with h1 h2
    subst h1
    have hp := updateNode_perm (setTextH_perm s) t x.1 x.2 hx1
    simp only [List.append_nil] at hp
    exact hp.nodup_iff.mpr hwf
  | insertNode tgt anchor node =>
    rw [applyOp] at h
    split at h
    · next hg =>
      rw [Option.map_eq_some'] at h
      obtain ⟨t2, ht1, ht2⟩ := h
      injection ht2 with h1 h2
      subst h1
      rw [insertBeforeOp, Option.map_eq_some'] at ht1
      obtain ⟨y, hy1, hy2⟩ := ht1
      subst hy2
      have hp := updateNode_perm (insertH_perm node anchor) t y.1 y.2 hy1
      simp only [List.append_nil] at hp
      refine hp.nodup_iff.mpr (List.nodup_append.mpr ⟨hwf, hg.1, ?_⟩)
      intro a ha hna
      exact hg.2 a hna ha
    · exact absurd h (by simp)
  | removeNode tgt c =>
    rw [applyOp, Option.map_eq_some'] at h
    obtain ⟨x, hx1, hx2⟩ := h
    injection hx2 with h1 h2
    subst h1
    rw [removeChildOp, Option.map_eq_some'] at hx1
    obtain ⟨y, hy1, hy2⟩ := hx1
    rw [Prod.mk.eta] at hy2
    subst hy2
    have hp := updateNode_perm (removeH_perm c) t y.1 y.2 hy1
    simp only [List.append_nil] at hp
    exact (hp.nodup_iff.mpr hwf).of_append_left
  | removeAll tgt =>
    rw [applyOp, Option.map_eq_some'] at h
    obtain ⟨x, hx1, hx2⟩ := h
    injection hx2 with h1 h2
    subst h1
    rw [removeAllOp] at hx1
    have hp := updateNode_perm removeAllH_perm t x.1 x.2 hx1
    simp only [List.append_nil] at hp
    exact (hp.nodup_iff.mpr hwf).of_append_left

end UseEditable

namespace UseEditable

-- Each node-level operation preserves the id of the node it rewrites.
theorem setTextH_nid (s : Str) :
    ∀ n n' (a' : Str), setTextH s n = some (n', a') →
      DNode.nid n' = DNode.nid n := by
  intro n n' a' hn
  cases n <;> simp [setTextH] at hn
  obtain ⟨h1, h2⟩ := hn
  subst h1
  rfl

theorem insertH_nid (node : DNode) (anchor : Option Nat) :
    ∀ n n' (a' : Unit), insertH node anchor n = some (n', a') →
      DNode.nid n' = DNode.nid n := by
  intro n n' a' hn
  cases n with
  | text j s => exact absurd hn (by simp [insertH])
  | br j => exact absurd hn (by simp [insertH])
  | elem j ks =>
    rw [insertH, Option.map_eq_some'] at hn
    obtain ⟨ks2, hks2, he⟩ := hn
    injection he with h1 h2
    subst h1
    rfl

theorem removeH_nid (c : Nat) :
    ∀ n n' (a' : DNode × Option Nat), removeH c n = some (n', a') →
      DNode.nid n' = DNode.nid n := by
  intro n n' a' hn
  cases n with
  | text j s => exact absurd hn (by simp [removeH])
  | br j => exact absurd hn (by simp [removeH])
  | elem j ks =>
    rw [removeH, Option.map_eq_some'] at hn
    obtain ⟨z, hz, he⟩ := hn
    injection he with h1 h2
    subst h1
    rfl

theorem removeAllH_nid :
    ∀ n n' (a' : List DNode), removeAllH n = some (n', a') →
      DNode.nid n' = DNode.nid n := by
  intro n n' a' hn
  cases n with
  | text j s => exact absurd hn (by simp [removeAllH])
  | br j => exact absurd hn (by simp [removeAllH])
  | elem j ks =>
    rw [removeAllH] at hn
    injection hn with he
    injection he with h1 h2
    subst h1
    rfl

/-- Rolling back a single captured mutation restores the tree it was
applied to, provided the record lists at most one removed node. -/
theorem applyOp_inv (t : DNode) (op : MOp) (t' : DNode) (m : MRecord)
    (hwf : wf t) (h : applyOp t op = some (t', m))
    (hlen : m.removed.length ≤ 1) : rollbackRecord t' m = some t := by
  cases op with
  | setText tgt s =>
    rw [applyOp, Option.map_eq_some'] at h
    obtain ⟨x, hx1, hx2⟩ := h
    obtain ⟨x1, x2⟩ := x
    injection hx2 with h1 h2
    subst h1
    subst h2
    rw [setTextOp] at hx1
    have hinv : ∀ n n', (∀ y ∈ idsOf n, y ∈ idsOf t) → (idsOf n).Nodup →
        setTextH s n = some (n', x2) → ∃ b : Str, setTextH x2 n' = some (n, b) := by
      intro n n' hsubn hndn hn
      cases n <;> simp [setTextH] at hn
      obtain ⟨h1, h2⟩ := hn
      subst h1
      subst h2
      exact ⟨s, rfl⟩
    obtain ⟨b, hb⟩ := updateNode_inv (setTextH_nid s) hinv t x1
      (fun y hy => hy) hwf hx1
    simp [rollbackRecord, setTextContent, setTextOp, hb, reinsertRemoved,
      removeAdded]
  | insertNode tgt anchor node =>
    rw [applyOp] at h
    split at h
    · next hg =>
      rw [Option.map_eq_some'] at h
      obtain ⟨t2, ht1, ht2⟩ := h
      injection ht2 with h1 h2
      subst h1
      subst h2
      rw [insertBeforeOp, Option.map_eq_some'] at ht1
      obtain ⟨y, hy1, hy2⟩ := ht1
      subst hy2
      have hy1' : updateNode (insertH node anchor) tgt t = some (y.1, y.2) := by
        rw [Prod.mk.eta]
        exact hy1
      have hperm := updateNode_perm (insertH_perm node anchor) t y.1 y.2 hy1'
      simp only [List.append_nil] at hperm
      have hmem : node.nid ∈ idsOf y.1 :=
        hperm.mem_iff.mpr (List.mem_append_right _ (nid_mem_idsOf node))
      have hnid : y.1.nid = t.nid :=
        updateNode_nid (insertH_nid node anchor) hy1'
      have hne : node.nid ≠ y.1.nid := by
        rw [hnid]
        intro he
        exact hg.2 node.nid (nid_mem_idsOf node) (he ▸ nid_mem_idsOf t)
      have hps : (parentOf y.1 node.nid).isSome :=
        parentOf_isSome y.1 node.nid ((containsId_iff_mem _ _).mpr hmem) hne
      have hinv : ∀ n n', (∀ z ∈ idsOf n, z ∈ idsOf t) → (idsOf n).Nodup →
          insertH node anchor n = some (n', y.2) →
          ∃ b : DNode × Option Nat, removeH node.nid n' = some (n, b) := by
        intro n n' hsubn hndn hn
        cases n with
        | text j s => exact absurd hn (by simp [insertH])
        | br j => exact absurd hn (by simp [insertH])
        | elem j ks =>
          rw [insertH, Option.map_eq_some'] at hn
          obtain ⟨ks2, hks2, he⟩ := hn
          injection he with h1 h2
          subst h1
          have hfresh : ∀ k ∈ ks, k.nid ≠ node.nid := by
            intro k hk he2
            refine hg.2 node.nid (nid_mem_idsOf node) ?_
            rw [← he2]
            refine hsubn k.nid ?_
            show k.nid ∈ j :: idsOfL ks
            exact List.mem_cons_of_mem _ (mem_idsOfL_of_mem hk (nid_mem_idsOf k))
          obtain ⟨ns, hns⟩ := insert_remove_inv ks node anchor ks2 hfresh hks2
          exact ⟨(node, ns), by rw [removeH, hns]; rfl⟩
      obtain ⟨b, hb⟩ := updateNode_inv (insertH_nid node anchor) hinv t y.1
        (fun z hz => hz) hwf hy1'
      simp [rollbackRecord, reinsertRemoved, removeAdded, hps, removeChildOp,
        hb]
    · exact absurd h (by simp)
  | removeNode tgt c =>
    rw [applyOp, Option.map_eq_some'] at h
    obtain ⟨x, hx1, hx2⟩ := h
    injection hx2 with h1 h2
    subst h1
    subst h2
    rw [removeChildOp, Option.map_eq_some'] at hx1
    obtain ⟨y, hy1, hy2⟩ := hx1
    rw [Prod.mk.eta] at hy2
    subst hy2
    have hy1' : updateNode (removeH c) tgt t = some (y.1, y.2) := by
      rw [Prod.mk.eta]
      exact hy1
    have hinv : ∀ n n', (∀ z ∈ idsOf n, z ∈ idsOf t) → (idsOf n).Nodup →
        removeH c n = some (n', y.2) →
        ∃ b : Unit, insertH y.2.1 y.2.2 n' = some (n, b) := by
      intro n n' hsubn hndn hn
      cases n with
      | text j s => exact absurd hn (by simp [removeH])
      | br j => exact absurd hn (by simp [removeH])
      | elem j ks =>
        rw [removeH, Option.map_eq_some'] at hn
        obtain ⟨z, hz, he⟩ := hn
        obtain ⟨z1, z2⟩ := z
        obtain ⟨zs, zn⟩ := z2
        injection he with h1 h2
        subst h1
        have hndk : (ks.map DNode.nid).Nodup := by
          apply nodupNids
          have hids : idsOf (DNode.elem j ks) = j :: idsOfL ks := rfl
          rw [hids, List.nodup_cons] at hndn
          exact hndn.2
        have hre := remove_insert_inv ks c hndk z1 zs zn hz
        rw [← h2]
        exact ⟨(), by rw [insertH, hre]; rfl⟩
    obtain ⟨b, hb⟩ := updateNode_inv (removeH_nid c) hinv t y.1
      (fun z hz => hz) hwf hy1'
    simp [rollbackRecord, reinsertRemoved, insertBeforeOp, hb, removeAdded]
  | removeAll tgt =>
    rw [applyOp, Option.map_eq_some'] at h
    obtain ⟨x, hx1, hx2⟩ := h
    obtain ⟨x1, x2⟩ := x
    injection hx2 with h1 h2
    subst h1
    subst h2
    rw [removeAllOp] at hx1
    cases x2 with
    | nil =>
      have hid : ∀ n n', removeAllH n = some (n', ([] : List DNode)) →
          n' = n := by
        intro n n' hn
        cases n with
        | text j s => exact absurd hn (by simp [removeAllH])
        | br j => exact absurd hn (by simp [removeAllH])
        | elem j ks =>
          rw [removeAllH] at hn
          injection hn with he
          injection he with h1 h2
          subst h2
          exact h1.symm
      have := updateNode_id hid t x1 hx1
      subst this
      simp [rollbackRecord, reinsertRemoved, removeAdded]
    | cons node rest =>
      cases rest with
      | cons r0 r1 => simp at hlen
      | nil =>
        have hinv : ∀ n n', (∀ z ∈ idsOf n, z ∈ idsOf t) → (idsOf n).Nodup →
            removeAllH n = some (n', [node]) →
            ∃ b : Unit, insertH node none n' = some (n, b) := by
          intro n n' hsubn hndn hn
          cases n with
          | text j s => exact absurd hn (by simp [removeAllH])
          | br j => exact absurd hn (by simp [removeAllH])
          | elem j ks =>
            rw [removeAllH] at hn
            injection hn with he
            injection he with h1 h2
            subst h1
            subst h2
            exact ⟨(), rfl⟩
        obtain ⟨b, hb⟩ := updateNode_inv removeAllH_nid hinv t x1
          (fun z hz => hz) hwf hx1
        simp [rollbackRecord, reinsertRemoved, insertBeforeOp, hb, removeAdded]

end UseEditable

namespace UseEditable

/-- Rollback exactness for the queue: popping and rolling back the records
in reverse arrival order restores the pre-mutation tree, provided every
record lists at most one removed node. -/
theorem rollback_exact (ops : List MOp) :
    ∀ (t t' : DNode) (recs : List MRecord), wf t →
      applyOps t ops = some (t', recs) →
      (∀ r ∈ recs, r.removed.length ≤ 1) →
      flushRollback t' recs = some t := by
  induction ops with
  | nil =>
    intro t t' recs hwf h hone
    rw [applyOps] at h
    injection h with he
    injection he with h1 h2
    subst h1
    subst h2
    rfl
  | cons op ops ih =>
    intro t t' recs hwf h hone
    rw [applyOps] at h
    simp only [Option.bind_eq_some, Option.pure_def, Option.some.injEq,
      bind, Prod.mk.injEq] at h
    obtain ⟨x, hx, y, hy, h1, h2⟩ := h
    subst h1
    subst h2
    have hwf1 : wf x.1 := applyOp_wf t op x.1 x.2 hwf
      (by rw [Prod.mk.eta]; exact hx)
    have hrest : flushRollback y.1 y.2 = some x.1 :=
      ih x.1 y.1 y.2 hwf1 hy (fun r hr => hone r (List.mem_cons_of_mem _ hr))
    rw [flushRollback]
    rw [hrest]
    exact applyOp_inv t op x.1 x.2 hwf (by rw [Prod.mk.eta]; exact hx)
      (hone x.2 (List.mem_cons_self _ _))

end UseEditable

namespace UseEditable

/-- C1. The claimed rollback exactness fails: for the tree
`<div id 0>[text "a", text "b"]` a single mutation clearing the target's
children is captured as one record with `removedNodes = [a-node, b-node]`
and `nextSibling = null`, and the flush loop — which walks `removedNodes`
by descending index while inserting each node before the same fixed
anchor — reinserts them in reversed order, so the rolled-back tree is
`[text "b", text "a"]`, not the pre-mutation snapshot. -/
theorem c1_rollback_counterexample :
    applyOps (DNode.elem 0 [DNode.text 1 ['a'], DNode.text 2 ['b']])
      [MOp.removeAll 0] =
      some (DNode.elem 0 [],
        [⟨0, none, [DNode.text 1 ['a'], DNode.text 2 ['b']], none, []⟩]) ∧
    flushRollback (DNode.elem 0 [])
      [⟨0, none, [DNode.text 1 ['a'], DNode.text 2 ['b']], none, []⟩] =
      some (DNode.elem 0 [DNode.text 2 ['b'], DNode.text 1 ['a']]) ∧
    DNode.elem 0 [DNode.text 2 ['b'], DNode.text 1 ['a']] ≠
      DNode.elem 0 [DNode.text 1 ['a'], DNode.text 2 ['b']] := by
  refine ⟨rfl, rfl, ?_⟩
  intro hc
  simp at hc

/-- C1 (amended). Rollback exactness does hold whenever every queued
record lists at most one removed node (in particular for any run of
text changes, single-node insertions and single-node removals on a tree
with pairwise distinct node identities): flushing rolls the queue back
in reverse arrival order and restores the exact pre-mutation tree. -/
theorem c1_rollback_amended (t : DNode) (ops : List MOp) (t' : DNode)
    (recs : List MRecord) (hwf : wf t)
    (h : applyOps t ops = some (t', recs))
    (hone : ∀ r ∈ recs, r.removed.length ≤ 1) :
    flushRollback t' recs = some t :=
  rollback_exact ops t t' recs hwf h hone

theorem c1_rollback_amended_witness :
    flushRollback (DNode.elem 0 [DNode.text 7 ['q'], DNode.br 2])
      [⟨1, some ['a','b'], [], none, []⟩,
       ⟨0, none, [], some 2, [7]⟩,
       ⟨0, none, [DNode.text 1 ['z']], some 7, []⟩] =
      some (DNode.elem 0 [DNode.text 1 ['a','b'], DNode.br 2]) :=
  c1_rollback_amended
    (DNode.elem 0 [DNode.text 1 ['a','b'], DNode.br 2])
    [MOp.setText 1 ['z'], MOp.insertNode 0 (some 2) (DNode.text 7 ['q']),
     MOp.removeNode 0 1]
    (DNode.elem 0 [DNode.text 7 ['q'], DNode.br 2])
    [⟨1, some ['a','b'], [], none, []⟩,
     ⟨0, none, [], some 2, [7]⟩,
     ⟨0, none, [DNode.text 1 ['z']], some 7, []⟩]
    (show (idsOf (DNode.elem 0 [DNode.text 1 ['a','b'], DNode.br 2])).Nodup
      by decide) rfl (by decide)

/-- C8. The rollback loop removes an added node only under the
`parentNode` attachment guard: an added id whose node is detached
(`parentNode` null) is skipped outright, and a record all of whose added
nodes are detached rolls back to the unchanged tree without error. -/
theorem c8_detached_added_skipped :
    (∀ (t : DNode) (tgt i : Nat) (rest : List Nat), parentOf t i = none →
      removeAdded t tgt (i :: rest) = removeAdded t tgt rest) ∧
    (∀ (t : DNode) (tgt : Nat) (added : List Nat),
      (∀ i ∈ added, parentOf t i = none) →
      removeAdded t tgt added = some t) := by
  have hskip : ∀ (t : DNode) (tgt i : Nat) (rest : List Nat),
      parentOf t i = none →
      removeAdded t tgt (i :: rest) = removeAdded t tgt rest := by
    intro t tgt i rest hp
    rw [removeAdded, if_neg (by simp [hp])]
  refine ⟨hskip, ?_⟩
  intro t tgt added
  induction added with
  | nil => intro _; rfl
  | cons i rest ih =>
    intro hall
    rw [hskip t tgt i rest (hall i (List.mem_cons_self _ _))]
    exact ih (fun j hj => hall j (List.mem_cons_of_mem _ hj))

theorem c8_detached_added_skipped_witness :
    removeAdded (DNode.elem 0 [DNode.text 1 ['a']]) 0 [99] =
      removeAdded (DNode.elem 0 [DNode.text 1 ['a']]) 0 [] ∧
    removeAdded (DNode.elem 0 [DNode.text 1 ['a']]) 0 [99, 98] =
      some (DNode.elem 0 [DNode.text 1 ['a']]) :=
  ⟨c8_detached_added_skipped.1 (DNode.elem 0 [DNode.text 1 ['a']]) 0 99 []
     (by decide),
   c8_detached_added_skipped.2 (DNode.elem 0 [DNode.text 1 ['a']]) 0 [99, 98]
     (by decide)⟩

end UseEditable
